import Mathlib

/-!
# Receipt processor: the scoring rules of `ProcessRecepitsHandler`

A shallow embedding of `main.go`.  The handler decodes a receipt, computes its
points by seven additive rules and stores them under a fresh identifier.

The Go run-time pieces the handler calls are modelled first:

* `int` is the 64-bit two's-complement integer of the amd64 port (`wrapInt64`);
* `float64` is modelled exactly: a finite value is an integer number of units
  of `2^-1074` (every finite binary64 value is such a multiple), arithmetic is
  carried out on integers and rounded to 53 significant bits, ties to even;
* `strconv.ParseFloat`, `strings.TrimSpace`, `unicode.IsLetter`,
  `unicode.IsNumber` and `time.Parse` follow the Go standard library.
-/

set_option exponentiation.threshold 200000
set_option maxRecDepth 4096

namespace ReceiptProcessor

/-! ## Go `int` -/

/-- Two's-complement reduction of an integer to the 64-bit `int` of Go. -/
def wrapInt64 (n : Int) : Int := (n + 2 ^ 63) % 2 ^ 64 - 2 ^ 63

/-- Go `a + b` on `int`. -/
def addInt (a b : Int) : Int := wrapInt64 (a + b)

/-- Go `a * b` on `int`. -/
def mulInt (a b : Int) : Int := wrapInt64 (a * b)

/-! ## Go `float64` -/

/-- The number of units of `2^-1074` in `1.0`. -/
def unitsPerOne : Nat := 2 ^ 1074

/-- The first magnitude, in units of `2^-1074`, that no finite `float64` reaches: `2^1024`. -/
def overflowUnits : Nat := 2 ^ 2098

/-- A `float64`.  `fin k` is the finite value `k * 2^-1074`.  The sign of zero is
not kept: the program never divides by a float, prints one or asks for its sign
bit, so `-0` and `+0` are indistinguishable in it. -/
inductive Float64 where
  | nan : Float64
  | inf (neg : Bool) : Float64
  | fin (k : Int) : Float64
  deriving DecidableEq, Repr

/-- The least `s` from `s₀` on with `n < 2^(2^s)`, trying at most `fuel` of them. -/
def log2Steps : Nat → Nat → Nat → Nat
  | 0, s, _ => s
  | fuel + 1, s, n => if n < 2 ^ 2 ^ s then s else log2Steps fuel (s + 1) n

/-- Binary search for `⌊log₂ n⌋` in the `2^steps` exponents from `lo` on. -/
def log2Search : Nat → Nat → Nat → Nat
  | 0, lo, _ => lo
  | s + 1, lo, n =>
    if n < 2 ^ (lo + 2 ^ s) then log2Search s lo n else log2Search s (lo + 2 ^ s) n

/-- The number of binary digits of `n` (`0` for `0`). -/
def bitLen (n : Nat) : Nat :=
  if n = 0 then 0 else log2Search (log2Steps n 0 n) 0 n + 1

/-- The integer nearest to `num / den`, a tie going to the even one. -/
def roundHalfEven (num den : Nat) : Nat :=
  let q := num / den
  let r := num % den
  if 2 * r < den then q
  else if den < 2 * r then q + 1
  else if q % 2 = 0 then q else q + 1

/-- IEEE 754 round-to-nearest-even of the non-negative rational `num / den`,
both sides counted in units of `2^-1074`, to a 53-bit significand.  Below
`2^53` units (subnormals and the first normal binade) the spacing is one unit;
above, a value of `b` binary digits has spacing `2^(b-53)`. -/
def roundUnits (num den : Nat) : Nat :=
  let shift := bitLen (num / den) - 53
  roundHalfEven num (den * 2 ^ shift) * 2 ^ shift

namespace Float64

/-- The `float64` nearest to `± num / den` units; `±Inf` on overflow. -/
def round (neg : Bool) (num den : Nat) : Float64 :=
  let u := roundUnits num den
  if overflowUnits ≤ u then inf neg
  else fin (if neg then -(u : Int) else u)

/-- The `float64` nearest to the integer number of units `k`. -/
def ofUnits (k : Int) : Float64 := round (decide (k < 0)) k.natAbs 1

/-- Go `float64(n)` for an `int64` value `n`. -/
def ofInt (n : Int) : Float64 := round (decide (n < 0)) (n.natAbs * unitsPerOne) 1

/-- The nearest `float64` to the decimal `mant * 10^exp10`. -/
def ofDecimal (neg : Bool) (mant : Nat) (exp10 : Int) : Float64 :=
  match exp10 with
  | Int.ofNat e => round neg (mant * 10 ^ e * unitsPerOne) 1
  | Int.negSucc e => round neg (mant * unitsPerOne) (10 ^ (e + 1))

/-- The nearest `float64` to `mant * 2^exp2`. -/
def ofBinary (neg : Bool) (mant : Nat) (exp2 : Int) : Float64 :=
  match exp2 with
  | Int.ofNat e => round neg (mant * 2 ^ e * unitsPerOne) 1
  | Int.negSucc e => round neg (mant * unitsPerOne) (2 ^ (e + 1))

/-- Go `x - y` on `float64`. -/
def sub : Float64 → Float64 → Float64
  | nan, _ => nan
  | _, nan => nan
  | inf a, inf b => if a = b then nan else inf a
  | inf a, fin _ => inf a
  | fin _, inf b => inf (!b)
  | fin a, fin b => ofUnits (a - b)

/-- Go `x * y` on `float64`. -/
def mul : Float64 → Float64 → Float64
  | nan, _ => nan
  | _, nan => nan
  | inf a, inf b => inf (a != b)
  | inf a, fin k => if k = 0 then nan else inf (a != decide (k < 0))
  | fin k, inf b => if k = 0 then nan else inf (decide (k < 0) != b)
  | fin a, fin b => round (decide (a * b < 0)) (a * b).natAbs unitsPerOne

/-- Go `x == 0` on `float64`. -/
def isZero : Float64 → Bool
  | fin k => decide (k = 0)
  | _ => false

/-- Go `math.Ceil`. -/
def ceil : Float64 → Float64
  | fin k => fin (-((-k) / (unitsPerOne : Int)) * unitsPerOne)
  | x => x

/-- Go `int64(x)` and `int(x)` for a `float64`: the value truncated toward
zero.  When the truncated value is not an `int64` (and for `NaN` and `±Inf`) Go
leaves the result to the implementation; this is the amd64 result, the
"integer indefinite" value `-2^63` of `CVTTSD2SQ`. -/
def toInt : Float64 → Int
  | fin k =>
    let t := Int.tdiv k unitsPerOne
    if -(2 ^ 63) ≤ t ∧ t < 2 ^ 63 then t else -(2 ^ 63)
  | _ => -(2 ^ 63)

end Float64

/-! ## Go `unicode` and `strings` -/

/-- The range tables `unicode.Letter` and `unicode.Number` of the Go release the
service is built with, as membership tests.  `IsLetter` and `IsNumber` consult
them only above Latin-1. -/
structure UnicodeTables where
  Letter : Char → Bool
  Number : Char → Bool

/-- Go `unicode.IsLetter`: the Latin-1 property table (category L: `A-Z`, `a-z`,
`ª`, `µ`, `º`, `À-Ö`, `Ø-ö`, `ø-ÿ`), the range table `Letter` above it. -/
def IsLetter (t : UnicodeTables) (r : Char) : Bool :=
  let c := r.toNat
  if c ≤ 0xFF then
    (0x41 ≤ c && c ≤ 0x5A) || (0x61 ≤ c && c ≤ 0x7A) || c == 0xAA || c == 0xB5 || c == 0xBA
      || (0xC0 ≤ c && c ≤ 0xD6) || (0xD8 ≤ c && c ≤ 0xF6) || (0xF8 ≤ c && c ≤ 0xFF)
  else t.Letter r

/-- Go `unicode.IsNumber`: the Latin-1 property table (category N: `0-9`, `²`,
`³`, `¹`, `¼`, `½`, `¾`), the range table `Number` above it. -/
def IsNumber (t : UnicodeTables) (r : Char) : Bool :=
  let c := r.toNat
  if c ≤ 0xFF then
    (0x30 ≤ c && c ≤ 0x39) || c == 0xB2 || c == 0xB3 || c == 0xB9 || (0xBC ≤ c && c ≤ 0xBE)
  else t.Number r

/-- Go `unicode.IsSpace`: `'\t'`, `'\n'`, `'\v'`, `'\f'`, `'\r'`, `' '`, U+0085
and U+00A0 in Latin-1, the `White_Space` table above it. -/
def IsSpace (r : Char) : Bool :=
  let c := r.toNat
  if c ≤ 0xFF then
    (0x09 ≤ c && c ≤ 0x0D) || c == 0x20 || c == 0x85 || c == 0xA0
  else
    c == 0x1680 || (0x2000 ≤ c && c ≤ 0x200A) || c == 0x2028 || c == 0x2029
      || c == 0x202F || c == 0x205F || c == 0x3000

/-- Go `strings.TrimSpace` on the characters of a (valid UTF-8) string. -/
def TrimSpace (s : List Char) : List Char :=
  ((s.dropWhile IsSpace).reverse.dropWhile IsSpace).reverse

/-- Go `len(s)`: the number of bytes of the UTF-8 encoding. -/
def utf8Len (s : List Char) : Nat := (s.map Char.utf8Size).sum

/-! ## Go `strconv.ParseFloat` -/

/-- The `Err` of the `*strconv.NumError` that `ParseFloat` returns. -/
inductive NumError where
  | ErrSyntax : NumError
  | ErrRange : NumError
  deriving DecidableEq, Repr

/-- Go `strconv.lower`: the byte `c | ('x' ^ 'X')`.  A character outside ASCII
is made of bytes of `0x80` and above, which this maps to no ASCII letter. -/
def lower (c : Char) : Nat := c.toNat ||| 0x20

/-- A decimal digit byte. -/
def isDigit (c : Char) : Bool := 0x30 ≤ c.toNat && c.toNat ≤ 0x39

/-- Go `strconv.commonPrefixLenIgnoreCase`; `pre` is in lower case. -/
def commonPrefixLenIgnoreCase : List Char → List Char → Nat
  | c :: s, p :: pre =>
    let c := if 0x41 ≤ c.toNat && c.toNat ≤ 0x5A then c.toNat + 0x20 else c.toNat
    if c ≠ p.toNat then 0 else commonPrefixLenIgnoreCase s pre + 1
  | _, _ => 0

/-- The `infinity` branch of `strconv.special`: how much of `s` spells `inf` or `infinity`. -/
def specialInf (s : List Char) : Option Nat :=
  let n := commonPrefixLenIgnoreCase s "infinity".toList
  let n := if 3 < n ∧ n < 8 then 3 else n
  if n = 3 ∨ n = 8 then some n else none

/-- Go `strconv.special`: a leading `NaN` or optionally signed `Inf`/`Infinity`,
with the number of bytes it takes. -/
def special (s : List Char) : Option (Float64 × Nat) :=
  match s with
  | [] => none
  | c :: rest =>
    if c = '+' ∨ c = '-' then
      (specialInf rest).map fun n => (Float64.inf (decide (c = '-')), 1 + n)
    else if c = 'i' ∨ c = 'I' then
      (specialInf s).map fun n => (Float64.inf false, n)
    else if c = 'n' ∨ c = 'N' then
      if commonPrefixLenIgnoreCase s "nan".toList = 3 then some (Float64.nan, 3) else none
    else none

/-- The variables of the digit loop of `strconv.readFloat`.  `mantissa` holds
every significant digit read (Go keeps the first 19, or 16 in base 16, with a
`trunc` flag, and goes back to the whole digit string where they do not settle
the rounding). -/
structure DigitState where
  mantissa : Nat
  nd : Nat
  dp : Int
  sawdot : Bool
  sawdigits : Bool
  underscores : Bool

/-- The digit loop of `strconv.readFloat`. -/
def readDigits (hex : Bool) : List Char → DigitState → DigitState × List Char
  | [], st => (st, [])
  | c :: s, st =>
    if c = '_' then readDigits hex s { st with underscores := true }
    else if c = '.' then
      if st.sawdot then (st, c :: s)
      else readDigits hex s { st with sawdot := true, dp := st.nd }
    else if isDigit c then
      if c = '0' ∧ st.nd = 0 then
        readDigits hex s { st with sawdigits := true, dp := st.dp - 1 }
      else
        readDigits hex s { st with
          sawdigits := true, nd := st.nd + 1
          mantissa := st.mantissa * (if hex then 16 else 10) + (c.toNat - 0x30) }
    else if hex ∧ 0x61 ≤ lower c ∧ lower c ≤ 0x66 then
      readDigits hex s { st with
        sawdigits := true, nd := st.nd + 1
        mantissa := st.mantissa * 16 + (lower c - 0x61 + 10) }
    else (st, c :: s)

/-- The exponent digit loop of `strconv.readFloat`; the exponent stops growing at `10000`. -/
def readExpDigits : List Char → Nat → Bool → Nat × Bool × List Char
  | [], e, u => (e, u, [])
  | c :: s, e, u =>
    if isDigit c then readExpDigits s (if e < 10000 then e * 10 + (c.toNat - 0x30) else e) u
    else if c = '_' then readExpDigits s e true
    else (e, u, c :: s)

/-- The loop of `strconv.underscoreOK`; `saw` is `'0'`, `'_'`, `'^'` or `'!'`. -/
def underscoreLoop (hex : Bool) : List Char → Char → Bool
  | [], saw => saw ≠ '_'
  | c :: s, saw =>
    if isDigit c || (hex && 0x61 ≤ lower c && lower c ≤ 0x66) then underscoreLoop hex s '0'
    else if c = '_' then
      if saw ≠ '0' then false else underscoreLoop hex s '_'
    else if saw = '_' then false
    else underscoreLoop hex s '!'

/-- Go `strconv.underscoreOK`: underscores only between digits or after a base prefix. -/
def underscoreOK (s : List Char) : Bool :=
  let s := match s with
    | c :: t => if c = '-' ∨ c = '+' then t else s
    | [] => s
  match s with
  | c0 :: c1 :: t =>
    if c0 = '0' ∧ (lower c1 = 0x62 ∨ lower c1 = 0x6F ∨ lower c1 = 0x78) then
      underscoreLoop (lower c1 = 0x78) t '0'
    else underscoreLoop false s '^'
  | _ => underscoreLoop false s '^'

/-- What `strconv.readFloat` reads: the value is `± mantissa * base^exp`, with
base 2 for a hexadecimal literal and 10 otherwise. -/
structure FloatLiteral where
  neg : Bool
  mantissa : Nat
  exp : Int
  hex : Bool

/-- Go `strconv.readFloat`: the literal at the start of `s` and what follows it,
`none` where Go returns `ok = false`. -/
def readFloat (s : List Char) : Option (FloatLiteral × List Char) :=
  if s = [] then none else
  let (neg, s1) := match s with
    | c :: t => if c = '+' then (false, t) else if c = '-' then (true, t) else (false, s)
    | [] => (false, s)
  let (hex, s2) := match s1 with
    | c0 :: c1 :: c2 :: t => if c0 = '0' ∧ lower c1 = 0x78 then (true, c2 :: t) else (false, s1)
    | _ => (false, s1)
  let (st, s3) := readDigits hex s2 ⟨0, 0, 0, false, false, false⟩
  if !st.sawdigits then none else
  let dp : Int := if st.sawdot then st.dp else st.nd
  let dp : Int := if hex then dp * 4 else dp
  let ndMant : Int := if hex then st.nd * 4 else st.nd
  let expChar : Nat := if hex then 0x70 else 0x65
  let exponent : Option (Int × Bool × List Char) :=
    match s3 with
    | c :: t =>
      if lower c = expChar then
        match t with
        | [] => none
        | d :: t1 =>
          let (esign, t2) : Int × List Char :=
            if d = '+' then (1, t1) else if d = '-' then (-1, t1) else (1, t)
          match t2 with
          | [] => none
          | d2 :: _ =>
            if !isDigit d2 then none
            else
              let (e, u, rest) := readExpDigits t2 0 st.underscores
              some (dp + e * esign, u, rest)
      else if hex then none
      else some (dp, st.underscores, s3)
    | [] => if hex then none else some (dp, st.underscores, s3)
  match exponent with
  | none => none
  | some (dp, underscores, rest) =>
    let exp : Int := if st.mantissa ≠ 0 then dp - ndMant else 0
    if underscores && !underscoreOK (s.take (s.length - rest.length)) then none
    else some (⟨neg, st.mantissa, exp, hex⟩, rest)

/-- Go `strconv.ParseFloat(s, 64)`: the value and the error (`none` for `nil`).
A well-formed literal gives the nearest `float64`, ties to even, and `±Inf`
with `ErrRange` when that overflows; anything else gives `0` with `ErrSyntax`. -/
def ParseFloat (s : String) : Float64 × Option NumError :=
  let s := s.toList
  match special s with
  | some (f, n) => if n = s.length then (f, none) else (Float64.fin 0, some NumError.ErrSyntax)
  | none =>
    match readFloat s with
    | none => (Float64.fin 0, some NumError.ErrSyntax)
    | some (lit, rest) =>
      if rest ≠ [] then (Float64.fin 0, some NumError.ErrSyntax)
      else
        let f := if lit.hex then Float64.ofBinary lit.neg lit.mantissa lit.exp
                 else Float64.ofDecimal lit.neg lit.mantissa lit.exp
        match f with
        | Float64.inf neg => (Float64.inf neg, some NumError.ErrRange)
        | f => (f, none)

/-! ## Go `time.Parse` -/

/-- A Go `time.Time` as `time.Parse` builds it for the two layouts used here:
a civil date and a time of day in UTC, with zero seconds. -/
structure Time where
  year : Nat
  month : Nat
  day : Nat
  hour : Nat
  min : Nat
  deriving DecidableEq, Repr

/-- Go `time.isLeap`. -/
def isLeap (year : Nat) : Bool :=
  year % 4 == 0 && (year % 100 != 0 || year % 400 == 0)

/-- Go `time.daysIn`. -/
def daysIn (m year : Nat) : Nat :=
  if m = 2 ∧ isLeap year then 29
  else match m with
    | 2 => 28
    | 4 => 30
    | 6 => 30
    | 9 => 30
    | 11 => 30
    | _ => 31

/-- Go `time.getnum`: a one- or two-digit number, two digits exactly when `fixed`. -/
def getnum (s : List Char) (fixed : Bool) : Option (Nat × List Char) :=
  match s with
  | c0 :: c1 :: t =>
    if !isDigit c0 then none
    else if !isDigit c1 then
      if fixed then none else some (c0.toNat - 0x30, c1 :: t)
    else some ((c0.toNat - 0x30) * 10 + (c1.toNat - 0x30), t)
  | [c0] =>
    if !isDigit c0 then none
    else if fixed then none else some (c0.toNat - 0x30, [])
  | [] => none

/-- Go `time.Parse("2006-01-02", value)`, `none` for an error: four digits of
year, `-`, two of month (1 to 12), `-`, two of day, nothing after, and the day
must exist in that month. -/
def parseDate (value : String) : Option Time :=
  match value.toList with
  | y0 :: y1 :: y2 :: y3 :: v1 =>
    if !(isDigit y0 && isDigit y1 && isDigit y2 && isDigit y3) then none else
    let year := (y0.toNat - 0x30) * 1000 + (y1.toNat - 0x30) * 100
      + (y2.toNat - 0x30) * 10 + (y3.toNat - 0x30)
    match v1 with
    | '-' :: v2 =>
      match getnum v2 true with
      | none => none
      | some (month, v3) =>
        if month = 0 ∨ 12 < month then none else
        match v3 with
        | '-' :: v4 =>
          match getnum v4 true with
          | none => none
          | some (day, v5) =>
            if v5 ≠ [] then none
            else if day < 1 ∨ day > daysIn month year then none
            else some ⟨year, month, day, 0, 0⟩
        | _ => none
    | _ => none
  | _ => none

/-- Go `time.Parse("15:04", value)`, `none` for an error: one or two digits of
hour (below 24), `:`, two of minute (below 60), nothing after; the date is
January 1 of year 0. -/
def parseClock (value : String) : Option Time :=
  match getnum value.toList false with
  | none => none
  | some (hour, v1) =>
    if 24 ≤ hour then none else
    match v1 with
    | ':' :: v2 =>
      match getnum v2 true with
      | none => none
      | some (min, v3) =>
        if 60 ≤ min then none
        else if v3 ≠ [] then none
        else some ⟨0, 1, 1, hour, min⟩
    | _ => none

namespace Time

/-- The minutes from the start of the day. -/
def minuteOfDay (t : Time) : Nat := t.hour * 60 + t.min

/-- Go `t.After(u)`: the instant `t` is later than `u`. -/
def After (t u : Time) : Bool :=
  decide (u.year < t.year) ||
  (t.year == u.year && (decide (u.month < t.month) ||
  (t.month == u.month && (decide (u.day < t.day) ||
  (t.day == u.day && decide (u.minuteOfDay < t.minuteOfDay))))))

/-- Go `t.Before(u)`: the instant `t` is earlier than `u`. -/
def Before (t u : Time) : Bool := After u t

/-- Go `t.Day()`. -/
def Day (t : Time) : Nat := t.day

/-- The zero `Time{}` that `time.Parse` returns with an error: January 1 of year 1, 00:00 UTC. -/
def zero : Time := ⟨1, 1, 1, 0, 0⟩

end Time

/-! ## The service -/

/-- Recepit items data in the process recepits request object. -/
structure recepit_items where
  ShortDescription : String
  Price : String
  deriving DecidableEq, Repr

/-- Process recepits request object, as `json.Decoder.Decode` fills it. -/
structure process_recepits_request where
  Retailer : String
  PurchaseDate : String
  PurchaseTime : String
  Items : List recepit_items
  Total : String
  deriving DecidableEq, Repr

/-- Response for the process response request. -/
structure process_recepits_reponse where
  Id : String
  Points : Int
  deriving DecidableEq, Repr

/-- Response for get points response. -/
structure get_points_response where
  Points : Int
  deriving DecidableEq, Repr

/-- Lines 60-65: the alphanumeric characters of the retailer name, counted one
by one in an `int`. -/
def retailer_alphanum_count (t : UnicodeTables) (retailer : String) : Int :=
  retailer.toList.foldl
    (fun count char => if IsLetter t char || IsNumber t char then addInt count 1 else count) 0

/-- Go `totalSpend-float64(int64(totalSpend))`, the fractional part of the total
as lines 71 and 77 compute it. -/
def fractionOf (totalSpend : Float64) : Float64 :=
  totalSpend.sub (Float64.ofInt totalSpend.toInt)

/-- Lines 70-73: what the round-dollar rule adds to `points`. -/
def roundDollarPoints (total : String) : Int :=
  let (totalSpend, err) := ParseFloat total
  if err = none ∧ (fractionOf totalSpend).isZero then 50 else 0

/-- Go `int(100*(totalSpend-float64(int64(totalSpend))))`, the cents of line 77. -/
def centsOf (totalSpend : Float64) : Int :=
  ((Float64.ofInt 100).mul (fractionOf totalSpend)).toInt

/-- Line 77-79: what the quarter-dollar rule adds to `points`.  The error of
`ParseFloat` is not looked at here, only the value. -/
def quarterDollarPoints (total : String) : Int :=
  let (totalSpend, _) := ParseFloat total
  if !totalSpend.isZero ∧ Int.tmod (centsOf totalSpend) 25 = 0 then 25 else 0

/-- Line 82: `len(recepit.Items) / 2 * 5`. -/
def itemPairPoints (items : List recepit_items) : Int :=
  mulInt ((items.length : Int) / 2) 5

/-- The `float64` constant `0.2`. -/
def fifth : Float64 := Float64.ofDecimal false 2 (-1)

/-- Lines 87-94, the body of the loop over the items: what one item adds to `points`. -/
def descriptionPoints (item : recepit_items) : Int :=
  if utf8Len (TrimSpace item.ShortDescription.toList) % 3 = 0 then
    match ParseFloat item.Price with
    | (price, none) => ((price.mul fifth).ceil).toInt
    | (_, some _) => 0
  else 0

/-- Lines 98-101: what the odd-day rule adds to `points`. -/
def datePoints (purchaseDate : String) : Int :=
  match parseDate purchaseDate with
  | some purchaseDate => if purchaseDate.Day % 2 = 1 then 6 else 0
  | none => 0

/-- Lines 104-111: what the afternoon rule adds to `points`. -/
def timePoints (purchaseTime : String) : Int :=
  match parseClock purchaseTime with
  | some purchaseTime =>
    let twoPM : Time := (parseClock "14:00").getD Time.zero
    let fourPM : Time := (parseClock "16:00").getD Time.zero
    if purchaseTime.After twoPM && purchaseTime.Before fourPM then 10 else 0
  | none => 0

/-- Lines 57-111 of `ProcessRecepitsHandler`: the points of a decoded receipt. -/
def computePoints (t : UnicodeTables) (recepit : process_recepits_request) : Int :=
  let points : Int := 0
  let points := addInt points (retailer_alphanum_count t recepit.Retailer)
  let points := addInt points (roundDollarPoints recepit.Total)
  let points := addInt points (quarterDollarPoints recepit.Total)
  let points := addInt points (itemPairPoints recepit.Items)
  let points := recepit.Items.foldl (fun points item => addInt points (descriptionPoints item)) points
  let points := addInt points (datePoints recepit.PurchaseDate)
  let points := addInt points (timePoints recepit.PurchaseTime)
  points

/-- The map `pointsMap` from recepit ID to points. -/
abbrev PointsMap := String → Option Int

/-- What a handler writes to its `http.ResponseWriter`. -/
inductive Response where
  | error (status : Nat) (message : String) : Response
  | processed (status : Nat) (body : process_recepits_reponse) : Response
  | points (status : Nat) (body : get_points_response) : Response
  deriving DecidableEq, Repr

/-- The status code of a response. -/
def Response.status : Response → Nat
  | .error status _ => status
  | .processed status _ => status
  | .points status _ => status

/-- Go `ProcessRecepitsHandler`.  `body` is the outcome of decoding the request
body into the request object (the error text, or the object) and `id` the
identifier `uuid.New().String()` yields for this call. -/
def ProcessRecepitsHandler (t : UnicodeTables) (pointsMap : PointsMap)
    (body : Except String process_recepits_request) (id : String) : Response × PointsMap :=
  match body with
  | .error err => (.error 400 ("Invalid JSON" ++ err), pointsMap)
  | .ok recepit =>
    let points := computePoints t recepit
    (.processed 200 ⟨id, points⟩, fun k => if k = id then some points else pointsMap k)

/-- Go `GetPointsHandler`: a missing key of the map reads as `0`. -/
def GetPointsHandler (pointsMap : PointsMap) (id : String) : Response × PointsMap :=
  (.points 200 ⟨(pointsMap id).getD 0⟩, pointsMap)

/-! ## Reference quantities for the statements -/

namespace Float64

/-- The rational value of a finite `float64`, `none` for `NaN` and `±Inf`. -/
def toRat : Float64 → Option ℚ
  | fin k => some ((k : ℚ) / 2 ^ 1074)
  | _ => none

/-- A magnitude in units of `2^-1074` that a 53-bit significand can hold. -/
def Representable (n : Nat) : Prop := 2 ^ (bitLen n - 53) ∣ n

end Float64

/-- The number of characters of the retailer name that are a Unicode letter or
a Unicode number. -/
def alphanumCount (t : UnicodeTables) (retailer : String) : Nat :=
  retailer.toList.countP fun c => IsLetter t c || IsNumber t c

/-- The sum of the seven contributions as a mathematical integer, before it is
reduced to an `int`. -/
def exactPoints (t : UnicodeTables) (recepit : process_recepits_request) : Int :=
  (alphanumCount t recepit.Retailer : Int) + roundDollarPoints recepit.Total
    + quarterDollarPoints recepit.Total + 5 * ((recepit.Items.length / 2 : Nat) : Int)
    + (recepit.Items.map descriptionPoints).sum
    + datePoints recepit.PurchaseDate + timePoints recepit.PurchaseTime

/-- The number that a string of decimal digits denotes, continuing from `m`. -/
def digitsValue (m : Nat) (ds : List Char) : Nat :=
  ds.foldl (fun m c => m * 10 + (c.toNat - 0x30)) m

/-! ## Arithmetic of `int` -/

theorem wrapInt64_of_range {n : Int} (h₁ : -(2 ^ 63) ≤ n) (h₂ : n < 2 ^ 63) :
    wrapInt64 n = n := by
  unfold wrapInt64
  omega

theorem wrapInt64_range (n : Int) : -(2 ^ 63) ≤ wrapInt64 n ∧ wrapInt64 n < 2 ^ 63 := by
  unfold wrapInt64
  omega

theorem wrapInt64_add_wrap (a b : Int) : wrapInt64 (wrapInt64 a + b) = wrapInt64 (a + b) := by
  unfold wrapInt64
  omega

theorem addInt_wrap (a b : Int) : addInt (wrapInt64 a) b = wrapInt64 (a + b) :=
  wrapInt64_add_wrap a b

theorem addInt_wrap_wrap (a b : Int) : addInt (wrapInt64 a) (wrapInt64 b) = wrapInt64 (a + b) := by
  unfold addInt wrapInt64
  omega

theorem addInt_zero_wrap (a : Int) : addInt 0 (wrapInt64 a) = wrapInt64 a := by
  unfold addInt wrapInt64
  omega

theorem foldl_addInt_wrap (f : recepit_items → Int) (items : List recepit_items) (a : Int) :
    items.foldl (fun points item => addInt points (f item)) (wrapInt64 a)
      = wrapInt64 (a + (items.map f).sum) := by
  induction items generalizing a with
  | nil => simp
  | cons x xs ih =>
    simp only [List.foldl_cons, List.map_cons, List.sum_cons]
    rw [addInt_wrap, ih]
    congr 1
    ring

/-! ## The shape of `computePoints` -/

theorem retailer_foldl_wrap (t : UnicodeTables) (l : List Char) (a : Int) :
    l.foldl (fun count char =>
        if IsLetter t char || IsNumber t char then addInt count 1 else count) (wrapInt64 a)
      = wrapInt64 (a + (l.countP fun c => IsLetter t c || IsNumber t c : Nat)) := by
  induction l generalizing a with
  | nil => simp
  | cons c cs ih =>
    simp only [List.foldl_cons, List.countP_cons]
    by_cases hc : (IsLetter t c || IsNumber t c) = true
    · rw [if_pos hc, addInt_wrap, ih]
      simp only [hc, if_true]
      congr 1
      push_cast
      ring
    · rw [if_neg hc, ih]
      simp [hc]

theorem retailer_alphanum_count_eq (t : UnicodeTables) (retailer : String) :
    retailer_alphanum_count t retailer = wrapInt64 (alphanumCount t retailer) := by
  have h := retailer_foldl_wrap t retailer.toList 0
  have h0 : wrapInt64 0 = 0 := by decide
  rw [h0, zero_add] at h
  exact h

theorem itemPairPoints_eq (items : List recepit_items) :
    itemPairPoints items = wrapInt64 (5 * ((items.length / 2 : Nat) : Int)) := by
  unfold itemPairPoints mulInt
  congr 1
  push_cast
  ring

theorem computePoints_eq (t : UnicodeTables) (recepit : process_recepits_request) :
    computePoints t recepit = wrapInt64 (exactPoints t recepit) := by
  unfold computePoints exactPoints
  simp only [retailer_alphanum_count_eq, itemPairPoints_eq]
  simp only [addInt_zero_wrap, addInt_wrap, foldl_addInt_wrap]
  unfold wrapInt64
  omega

/-! ## `time.Parse` -/

theorem parseClock_some {s : String} {t : Time} (h : parseClock s = some t) :
    t.year = 0 ∧ t.month = 1 ∧ t.day = 1 ∧ t.hour < 24 ∧ t.min < 60 := by
  unfold parseClock at h
  split at h
  · exact absurd h (by simp)
  · rename_i hour v1 _
    split at h
    · exact absurd h (by simp)
    · rename_i hh
      split at h
      · rename_i v2
        split at h
        · exact absurd h (by simp)
        · rename_i min v3 _
          split at h
          · exact absurd h (by simp)
          · rename_i hm
            split at h
            · exact absurd h (by simp)
            · simp only [Option.some.injEq] at h
              subst h
              simp only [true_and]
              omega
      · exact absurd h (by simp)

theorem parseDate_some {s : String} {d : Time} (h : parseDate s = some d) :
    1 ≤ d.month ∧ d.month ≤ 12 ∧ 1 ≤ d.day ∧ d.day ≤ daysIn d.month d.year := by
  unfold parseDate at h
  split at h
  · split at h
    · exact absurd h (by simp)
    · simp only at h
      split at h
      · split at h
        · exact absurd h (by simp)
        · rename_i month v3 _
          split at h
          · exact absurd h (by simp)
          · rename_i hm
            split at h
            · split at h
              · exact absurd h (by simp)
              · rename_i day v5 _
                split at h
                · exact absurd h (by simp)
                · split at h
                  · exact absurd h (by simp)
                  · rename_i hd
                    simp only [Option.some.injEq] at h
                    subst h
                    simp only
                    omega
            · exact absurd h (by simp)
      · exact absurd h (by simp)
  · exact absurd h (by simp)

/-! ## `strconv.ParseFloat` on a text that is not a number -/

theorem ParseFloat_error {s : String} {x : Float64} {e : NumError}
    (h : ParseFloat s = (x, some e)) :
    x = Float64.fin 0 ∨ ∃ neg, x = Float64.inf neg := by
  unfold ParseFloat at h
  simp only at h
  split at h
  · split at h
    · simp at h
    · simp only [Prod.mk.injEq] at h
      exact Or.inl h.1.symm
  · split at h
    · simp only [Prod.mk.injEq] at h
      exact Or.inl h.1.symm
    · split at h
      · simp only [Prod.mk.injEq] at h
        exact Or.inl h.1.symm
      · split at h
        · simp only [Prod.mk.injEq] at h
          exact Or.inr ⟨_, h.1.symm⟩
        · simp at h

theorem roundDollarPoints_error {total : String} (h : (ParseFloat total).2 ≠ none) :
    roundDollarPoints total = 0 := by
  unfold roundDollarPoints
  split
  rename_i totalSpend err heq
  rw [heq] at h
  simp only at h
  simp [h]

theorem quarterDollarPoints_error {total : String} (h : (ParseFloat total).2 ≠ none) :
    quarterDollarPoints total = 0 := by
  unfold quarterDollarPoints
  split
  rename_i totalSpend err heq
  rw [heq] at h
  simp only at h
  obtain ⟨e, he⟩ := Option.ne_none_iff_exists'.mp h
  subst he
  rcases ParseFloat_error heq with h0 | ⟨neg, hinf⟩
  · subst h0
    rfl
  · subst hinf
    cases neg
    · decide
    · decide

theorem descriptionPoints_error {item : recepit_items} (h : (ParseFloat item.Price).2 ≠ none) :
    descriptionPoints item = 0 := by
  unfold descriptionPoints
  split
  · split
    · rename_i heq
      rw [heq] at h
      exact absurd rfl h
    · rfl
  · rfl

theorem datePoints_error {purchaseDate : String} (h : parseDate purchaseDate = none) :
    datePoints purchaseDate = 0 := by
  unfold datePoints
  rw [h]

theorem timePoints_error {purchaseTime : String} (h : parseClock purchaseTime = none) :
    timePoints purchaseTime = 0 := by
  unfold timePoints
  rw [h]

theorem alphanumCount_le (t : UnicodeTables) (retailer : String) :
    alphanumCount t retailer ≤ retailer.length :=
  List.countP_le_length _

theorem sum_map_eq_zero (f : recepit_items → Int) (items : List recepit_items)
    (h : ∀ item ∈ items, f item = 0) : (items.map f).sum = 0 := by
  induction items with
  | nil => rfl
  | cons x xs ih =>
    simp only [List.map_cons, List.sum_cons]
    rw [h x (List.mem_cons_self _ _), ih fun i hi => h i (List.mem_cons_of_mem _ hi)]
    rfl

/-! ## Binary digits -/

theorem log2Steps_spec (fuel s n : Nat) (h : n < 2 ^ 2 ^ (s + fuel)) :
    n < 2 ^ 2 ^ log2Steps fuel s n := by
  induction fuel generalizing s with
  | zero => simpa [log2Steps] using h
  | succ f ih =>
    unfold log2Steps
    split
    · assumption
    · apply ih
      rw [show s + 1 + f = s + (f + 1) by omega]
      exact h

theorem log2Search_spec (steps lo n : Nat) (h₁ : 2 ^ lo ≤ n) (h₂ : n < 2 ^ (lo + 2 ^ steps)) :
    2 ^ log2Search steps lo n ≤ n ∧ n < 2 ^ (log2Search steps lo n + 1) := by
  induction steps generalizing lo with
  | zero => exact ⟨h₁, by simpa [log2Search] using h₂⟩
  | succ s ih =>
    unfold log2Search
    split
    · rename_i hlt
      exact ih lo h₁ hlt
    · rename_i hge
      apply ih (lo + 2 ^ s) (Nat.le_of_not_lt hge)
      rw [show lo + 2 ^ s + 2 ^ s = lo + 2 ^ (s + 1) by rw [pow_succ]; omega]
      exact h₂

theorem bitLen_zero : bitLen 0 = 0 := rfl

theorem bitLen_spec {n : Nat} (h : 0 < n) :
    0 < bitLen n ∧ 2 ^ (bitLen n - 1) ≤ n ∧ n < 2 ^ bitLen n := by
  have hn : n ≠ 0 := Nat.pos_iff_ne_zero.mp h
  have hsteps : n < 2 ^ 2 ^ log2Steps n 0 n := by
    apply log2Steps_spec
    rw [Nat.zero_add]
    calc n < 2 ^ n := Nat.lt_two_pow n
      _ ≤ 2 ^ 2 ^ n := Nat.pow_le_pow_right (by decide) (Nat.le_of_lt (Nat.lt_two_pow n))
  have hs := log2Search_spec (log2Steps n 0 n) 0 n (by simpa using h) (by simpa using hsteps)
  unfold bitLen
  rw [if_neg hn]
  refine ⟨Nat.succ_pos _, ?_, hs.2⟩
  simpa using hs.1

theorem lt_two_pow_bitLen (n : Nat) : n < 2 ^ bitLen n := by
  rcases Nat.eq_zero_or_pos n with h | h
  · subst h
    decide
  · exact (bitLen_spec h).2.2

theorem bitLen_le_of_lt {n j : Nat} (h : n < 2 ^ j) : bitLen n ≤ j := by
  rcases Nat.eq_zero_or_pos n with h0 | h0
  · subst h0
    rw [bitLen_zero]
    exact Nat.zero_le _
  · obtain ⟨hpos, hle, -⟩ := bitLen_spec h0
    have : 2 ^ (bitLen n - 1) < 2 ^ j := Nat.lt_of_le_of_lt hle h
    have := (Nat.pow_lt_pow_iff_right (by decide : 1 < 2)).mp this
    omega

theorem bitLen_mono {a b : Nat} (h : a ≤ b) : bitLen a ≤ bitLen b :=
  bitLen_le_of_lt (Nat.lt_of_le_of_lt h (lt_two_pow_bitLen b))

theorem two_pow_le_of_bitLen {n s : Nat} (h : 0 < n) (hs : s < bitLen n) : 2 ^ s ≤ n := by
  obtain ⟨-, hle, -⟩ := bitLen_spec h
  exact Nat.le_trans (Nat.pow_le_pow_right (by decide) (by omega)) hle

/-! ## Rounding to the nearest integer -/

theorem roundHalfEven_ge (num den : Nat) : num / den ≤ roundHalfEven num den := by
  unfold roundHalfEven
  simp only
  split
  · exact Nat.le_refl _
  · split
    · exact Nat.le_succ _
    · split
      · exact Nat.le_refl _
      · exact Nat.le_succ _

theorem roundHalfEven_le (num den : Nat) : roundHalfEven num den ≤ num / den + 1 := by
  unfold roundHalfEven
  simp only
  split
  · exact Nat.le_succ _
  · split
    · exact Nat.le_refl _
    · split
      · exact Nat.le_succ _
      · exact Nat.le_refl _

theorem roundHalfEven_of_dvd {num den : Nat} (hden : 0 < den) (h : den ∣ num) :
    roundHalfEven num den = num / den := by
  unfold roundHalfEven
  simp only
  rw [Nat.mod_eq_zero_of_dvd h, if_pos (by omega)]

theorem roundHalfEven_le_of_le {num den m : Nat} (hden : 0 < den) (h : num ≤ m * den) :
    roundHalfEven num den ≤ m := by
  have hq : num / den ≤ m := by
    calc num / den ≤ m * den / den := Nat.div_le_div_right h
      _ = m := Nat.mul_div_cancel _ hden
  rcases Nat.lt_or_eq_of_le hq with hlt | heq
  · exact Nat.le_trans (roundHalfEven_le num den) hlt
  · have hnum : num = m * den := by
      apply Nat.le_antisymm h
      calc m * den = num / den * den := by rw [heq]
        _ ≤ num := Nat.div_mul_le_self num den
    rw [hnum, roundHalfEven_of_dvd hden (Nat.dvd_mul_left den m), Nat.mul_div_cancel _ hden]

/-! ## Rounding to a 53-bit significand -/

theorem lt_succ_div_mul (num : Nat) {den : Nat} (hden : 0 < den) :
    num < (num / den + 1) * den := by
  have h1 := Nat.div_add_mod num den
  have h2 := Nat.mod_lt num hden
  have h3 : (num / den + 1) * den = den * (num / den) + den := by ring
  omega

theorem roundUnits_significand_le (num den : Nat) (hden : 0 < den) :
    roundHalfEven num (den * 2 ^ (bitLen (num / den) - 53)) ≤ 2 ^ 53 := by
  have hpos : 0 < den * 2 ^ (bitLen (num / den) - 53) :=
    Nat.mul_pos hden (Nat.two_pow_pos _)
  apply roundHalfEven_le_of_le hpos
  have h1 : num < (num / den + 1) * den := lt_succ_div_mul num hden
  have h2 : num / den + 1 ≤ 2 ^ bitLen (num / den) := lt_two_pow_bitLen _
  have h3 : 2 ^ bitLen (num / den) ≤ 2 ^ (53 + (bitLen (num / den) - 53)) :=
    Nat.pow_le_pow_right (by decide) (by omega)
  calc num ≤ (num / den + 1) * den := Nat.le_of_lt h1
    _ ≤ 2 ^ (53 + (bitLen (num / den) - 53)) * den :=
        Nat.mul_le_mul_right _ (Nat.le_trans h2 h3)
    _ = 2 ^ 53 * (den * 2 ^ (bitLen (num / den) - 53)) := by rw [pow_add]; ring

theorem representable_mul_pow {n s : Nat} (hn : n ≤ 2 ^ 53) :
    Float64.Representable (n * 2 ^ s) := by
  unfold Float64.Representable
  rcases Nat.lt_or_eq_of_le hn with hlt | heq
  · have hR : n * 2 ^ s < 2 ^ (53 + s) := by
      rw [pow_add]
      exact Nat.mul_lt_mul_of_pos_right hlt (Nat.two_pow_pos _)
    have hb := bitLen_le_of_lt hR
    exact Dvd.dvd.mul_left (Nat.pow_dvd_pow 2 (by omega)) n
  · subst heq
    rw [← pow_add]
    have hR : 2 ^ (53 + s) < 2 ^ (54 + s) :=
      Nat.pow_lt_pow_right (by decide) (by omega)
    have hb := bitLen_le_of_lt hR
    exact Nat.pow_dvd_pow 2 (by omega)

theorem roundUnits_representable (num den : Nat) (hden : 0 < den) :
    Float64.Representable (roundUnits num den) := by
  unfold roundUnits
  exact representable_mul_pow (roundUnits_significand_le num den hden)

theorem roundUnits_of_representable {n : Nat} (h : Float64.Representable n) :
    roundUnits n 1 = n := by
  unfold roundUnits
  unfold Float64.Representable at h
  simp only [Nat.div_one, Nat.one_mul]
  rw [roundHalfEven_of_dvd (Nat.two_pow_pos _) h, Nat.div_mul_cancel h]

theorem roundUnits_pos {n : Nat} (h : 0 < n) : 0 < roundUnits n 1 := by
  unfold roundUnits
  simp only [Nat.div_one, Nat.one_mul]
  have hs : 2 ^ (bitLen n - 53) ≤ n :=
    two_pow_le_of_bitLen h (by have := (bitLen_spec h).1; omega)
  have hq : 0 < n / 2 ^ (bitLen n - 53) := Nat.div_pos hs (Nat.two_pow_pos _)
  exact Nat.mul_pos (Nat.lt_of_lt_of_le hq (roundHalfEven_ge _ _)) (Nat.two_pow_pos _)

theorem roundUnits_zero (den : Nat) : roundUnits 0 den = 0 := by
  unfold roundUnits roundHalfEven
  simp [bitLen_zero]

theorem roundUnits_le_pow {num den j : Nat} (hden : 0 < den) (hj : 53 ≤ j)
    (h : num ≤ 2 ^ j * den) : roundUnits num den ≤ 2 ^ j := by
  unfold roundUnits
  have hq : num / den ≤ 2 ^ j := by
    calc num / den ≤ 2 ^ j * den / den := Nat.div_le_div_right h
      _ = 2 ^ j := Nat.mul_div_cancel _ hden
  have hb : bitLen (num / den) ≤ j + 1 :=
    bitLen_le_of_lt (Nat.lt_of_le_of_lt hq (Nat.pow_lt_pow_right (by decide) (by omega)))
  have hs : bitLen (num / den) - 53 ≤ j := by omega
  have hpos : 0 < den * 2 ^ (bitLen (num / den) - 53) :=
    Nat.mul_pos hden (Nat.two_pow_pos _)
  have hsplit : 2 ^ j = 2 ^ (j - (bitLen (num / den) - 53)) * 2 ^ (bitLen (num / den) - 53) := by
    rw [← pow_add]
    congr 1
    omega
  have hn : roundHalfEven num (den * 2 ^ (bitLen (num / den) - 53))
      ≤ 2 ^ (j - (bitLen (num / den) - 53)) := by
    apply roundHalfEven_le_of_le hpos
    calc num ≤ 2 ^ j * den := h
      _ = 2 ^ (j - (bitLen (num / den) - 53)) * (den * 2 ^ (bitLen (num / den) - 53)) := by
          rw [hsplit]; ring_nf
  calc roundHalfEven num (den * 2 ^ (bitLen (num / den) - 53)) * 2 ^ (bitLen (num / den) - 53)
      ≤ 2 ^ (j - (bitLen (num / den) - 53)) * 2 ^ (bitLen (num / den) - 53) :=
        Nat.mul_le_mul_right _ hn
    _ = 2 ^ j := hsplit.symm

/-! ## `float64` operations on finite values -/

theorem unitsPerOne_pos : 0 < unitsPerOne := Nat.two_pow_pos _

theorem unitsPerOne_pos_int : (0 : Int) < (unitsPerOne : Int) :=
  Int.ofNat_lt.mpr unitsPerOne_pos

theorem round_of_lt {neg : Bool} {num den : Nat} (h : roundUnits num den < overflowUnits) :
    Float64.round neg num den
      = Float64.fin (if neg then -(roundUnits num den : Int) else roundUnits num den) := by
  unfold Float64.round
  simp only
  rw [if_neg (Nat.not_le.mpr h)]

theorem round_cases (neg : Bool) (num den : Nat) :
    Float64.round neg num den = Float64.inf neg
      ∨ Float64.round neg num den
          = Float64.fin (if neg then -(roundUnits num den : Int) else roundUnits num den) := by
  unfold Float64.round
  simp only
  split
  · exact Or.inl rfl
  · exact Or.inr rfl

theorem ofUnits_isZero (d : Int) : (Float64.ofUnits d).isZero = true ↔ d = 0 := by
  constructor
  · intro h
    by_contra hd
    have hpos : 0 < roundUnits d.natAbs 1 := roundUnits_pos (Int.natAbs_pos.mpr hd)
    unfold Float64.ofUnits at h
    rcases round_cases (decide (d < 0)) d.natAbs 1 with hr | hr
    · rw [hr] at h
      exact absurd h (by simp [Float64.isZero])
    · rw [hr] at h
      simp only [Float64.isZero, decide_eq_true_eq] at h
      split at h <;> omega
  · intro h
    subst h
    decide

theorem ofInt_of_representable {t : Int}
    (hrep : Float64.Representable (t.natAbs * unitsPerOne))
    (hlt : t.natAbs * unitsPerOne < overflowUnits) :
    Float64.ofInt t = Float64.fin (t * unitsPerOne) := by
  unfold Float64.ofInt
  have hr : roundUnits (t.natAbs * unitsPerOne) 1 = t.natAbs * unitsPerOne :=
    roundUnits_of_representable hrep
  rw [round_of_lt (by rw [hr]; exact hlt), hr]
  congr 1
  by_cases ht : t < 0
  · have : (t.natAbs : Int) = -t := by omega
    simp only [ht, decide_True, if_true, Nat.cast_mul, this]
    ring
  · have : (t.natAbs : Int) = t := by omega
    simp only [ht, decide_False, Bool.false_eq_true, if_false, Nat.cast_mul, this]

theorem representable_zero : Float64.Representable 0 := by
  unfold Float64.Representable
  exact Nat.dvd_zero _

theorem representable_div_mul {a : Nat} (h : Float64.Representable a) :
    Float64.Representable (a / unitsPerOne * unitsPerOne) := by
  unfold Float64.Representable at h ⊢
  have hle : a / unitsPerOne * unitsPerOne ≤ a := Nat.div_mul_le_self a unitsPerOne
  have hb := bitLen_mono hle
  by_cases hc : 1074 ≤ bitLen a - 53
  · have hU : unitsPerOne ∣ a := Nat.dvd_trans (Nat.pow_dvd_pow 2 hc) h
    rw [Nat.div_mul_cancel hU]
    exact h
  · exact Dvd.dvd.mul_left (Nat.pow_dvd_pow 2 (by omega)) _

theorem ofInt_le {v : Int} (h₁ : -(2 ^ 63) ≤ v) (h₂ : v < 2 ^ 63) :
    ∃ w : Int, Float64.ofInt v = Float64.fin w ∧ w ≤ 2 ^ 63 * (unitsPerOne : Int) := by
  have hn : v.natAbs ≤ 2 ^ 63 := by omega
  have hP : roundUnits (v.natAbs * unitsPerOne) 1 ≤ 2 ^ 1137 := by
    apply roundUnits_le_pow Nat.one_pos (by decide)
    calc v.natAbs * unitsPerOne ≤ 2 ^ 63 * unitsPerOne := Nat.mul_le_mul_right _ hn
      _ = 2 ^ 1137 * 1 := by decide
  have hov : (2 : Nat) ^ 1137 < overflowUnits := by decide
  have hPi : ((roundUnits (v.natAbs * unitsPerOne) 1 : Nat) : Int)
      ≤ 2 ^ 63 * (unitsPerOne : Int) := by
    have : (2 : Nat) ^ 1137 = 2 ^ 63 * unitsPerOne := by decide
    rw [this] at hP
    exact_mod_cast hP
  refine ⟨_, round_of_lt (Nat.lt_of_le_of_lt hP hov), ?_⟩
  split <;> omega

theorem ofInt_bounds {v : Int} (h₁ : -(2 ^ 63) ≤ v) (h₂ : v < 2 ^ 63) :
    ∃ w : Int, Float64.ofInt v = Float64.fin w ∧ -(2 ^ 63 * (unitsPerOne : Int)) ≤ w
      ∧ w ≤ 2 ^ 63 * (unitsPerOne : Int) := by
  have hn : v.natAbs ≤ 2 ^ 63 := by omega
  have hP : roundUnits (v.natAbs * unitsPerOne) 1 ≤ 2 ^ 1137 := by
    apply roundUnits_le_pow Nat.one_pos (by decide)
    calc v.natAbs * unitsPerOne ≤ 2 ^ 63 * unitsPerOne := Nat.mul_le_mul_right _ hn
      _ = 2 ^ 1137 * 1 := by decide
  have hov : (2 : Nat) ^ 1137 < overflowUnits := by decide
  have hPi : ((roundUnits (v.natAbs * unitsPerOne) 1 : Nat) : Int)
      ≤ 2 ^ 63 * (unitsPerOne : Int) := by
    have : (2 : Nat) ^ 1137 = 2 ^ 63 * unitsPerOne := by decide
    rw [this] at hP
    exact_mod_cast hP
  refine ⟨_, round_of_lt (Nat.lt_of_le_of_lt hP hov), ?_, ?_⟩
  · split <;> omega
  · split <;> omega

theorem ofInt_minInt :
    Float64.ofInt (-(2 ^ 63)) = Float64.fin (-(2 ^ 63) * (unitsPerOne : Int)) := by
  decide

theorem ofInt_tdiv {k : Int} (hrep : Float64.Representable k.natAbs)
    (hin : -(2 ^ 63) ≤ Int.tdiv k unitsPerOne ∧ Int.tdiv k unitsPerOne < 2 ^ 63) :
    Float64.ofInt (Int.tdiv k unitsPerOne)
      = Float64.fin (Int.tdiv k unitsPerOne * unitsPerOne) := by
  have hnat : (Int.tdiv k unitsPerOne).natAbs = k.natAbs / unitsPerOne := by
    rw [Int.natAbs_tdiv, Int.natAbs_ofNat]
    rfl
  apply ofInt_of_representable
  · rw [hnat]
    exact representable_div_mul hrep
  · have h1 : (Int.tdiv k unitsPerOne).natAbs ≤ 2 ^ 63 := by omega
    calc (Int.tdiv k unitsPerOne).natAbs * unitsPerOne
        ≤ 2 ^ 63 * unitsPerOne := Nat.mul_le_mul_right _ h1
      _ < overflowUnits := by decide

theorem fractionOf_isZero_iff {k : Int} (hrep : Float64.Representable k.natAbs) :
    (fractionOf (Float64.fin k)).isZero = true
      ↔ (unitsPerOne : Int) ∣ k ∧ -(2 ^ 63) * (unitsPerOne : Int) ≤ k
          ∧ k < 2 ^ 63 * (unitsPerOne : Int) := by
  have hU := unitsPerOne_pos_int
  have hrange : ((unitsPerOne : Int) ∣ k ∧ -(2 ^ 63) * (unitsPerOne : Int) ≤ k
      ∧ k < 2 ^ 63 * (unitsPerOne : Int)) →
      -(2 ^ 63) ≤ Int.tdiv k unitsPerOne ∧ Int.tdiv k unitsPerOne < 2 ^ 63 := by
    rintro ⟨hd, h1, h2⟩
    have hk : Int.tdiv k unitsPerOne * unitsPerOne = k := Int.tdiv_mul_cancel hd
    rw [← hk] at h1 h2
    exact ⟨Int.le_of_mul_le_mul_right h1 hU, Int.lt_of_mul_lt_mul_right h2 (Int.le_of_lt hU)⟩
  unfold fractionOf Float64.toInt
  simp only
  by_cases hin : -(2 ^ 63) ≤ Int.tdiv k unitsPerOne ∧ Int.tdiv k unitsPerOne < 2 ^ 63
  · rw [if_pos hin, ofInt_tdiv hrep hin]
    show (Float64.ofUnits (k - Int.tdiv k unitsPerOne * unitsPerOne)).isZero = true ↔ _
    rw [ofUnits_isZero]
    constructor
    · intro h
      have hk : k = Int.tdiv k unitsPerOne * unitsPerOne := by omega
      refine ⟨⟨_, by rw [mul_comm]; exact hk⟩, ?_, ?_⟩
      · rw [hk]
        exact Int.mul_le_mul_of_nonneg_right hin.1 (Int.le_of_lt hU)
      · rw [hk]
        exact Int.mul_lt_mul_of_pos_right hin.2 hU
    · rintro ⟨hd, -, -⟩
      have hk : Int.tdiv k unitsPerOne * unitsPerOne = k := Int.tdiv_mul_cancel hd
      omega
  · rw [if_neg hin, ofInt_minInt]
    show (Float64.ofUnits (k - -(2 ^ 63) * (unitsPerOne : Int))).isZero = true ↔ _
    rw [ofUnits_isZero]
    constructor
    · intro h
      have hk : k = -(2 ^ 63) * (unitsPerOne : Int) := by omega
      exfalso
      apply hin
      rw [hk, Int.mul_tdiv_cancel _ (Int.ne_of_gt hU)]
      decide
    · intro h
      exact absurd (hrange h) hin

/-! ## What `ParseFloat` returns -/

theorem round_fin_representable {neg : Bool} {num den : Nat} {k : Int} (hden : 0 < den)
    (h : Float64.round neg num den = Float64.fin k) : Float64.Representable k.natAbs := by
  rcases round_cases neg num den with hr | hr
  · rw [hr] at h
    exact absurd h (by simp)
  · rw [hr] at h
    have hk : k.natAbs = roundUnits num den := by
      simp only [Float64.fin.injEq] at h
      split at h <;> omega
    rw [hk]
    exact roundUnits_representable num den hden

theorem ofDecimal_fin_representable {neg : Bool} {mant : Nat} {exp10 k : Int}
    (h : Float64.ofDecimal neg mant exp10 = Float64.fin k) : Float64.Representable k.natAbs := by
  unfold Float64.ofDecimal at h
  split at h
  · exact round_fin_representable Nat.one_pos h
  · exact round_fin_representable (Nat.pos_pow_of_pos _ (by decide)) h

theorem ofBinary_fin_representable {neg : Bool} {mant : Nat} {exp2 k : Int}
    (h : Float64.ofBinary neg mant exp2 = Float64.fin k) : Float64.Representable k.natAbs := by
  unfold Float64.ofBinary at h
  split at h
  · exact round_fin_representable Nat.one_pos h
  · exact round_fin_representable (Nat.two_pow_pos _) h

theorem special_not_fin {s : List Char} {f : Float64} {n : Nat} (h : special s = some (f, n)) :
    ∀ k, f ≠ Float64.fin k := by
  intro k hk
  subst hk
  unfold special at h
  split at h
  · simp at h
  · split at h
    · simp [Option.map_eq_some'] at h
    · split at h
      · simp [Option.map_eq_some'] at h
      · split at h
        · split at h <;> simp at h
        · simp at h

theorem ParseFloat_representable {s : String} {k : Int} {e : Option NumError}
    (h : ParseFloat s = (Float64.fin k, e)) : Float64.Representable k.natAbs := by
  have hzero : ∀ {e' : Option NumError}, (Float64.fin 0, e') = (Float64.fin k, e) →
      Float64.Representable k.natAbs := by
    intro e' h0
    simp only [Prod.mk.injEq, Float64.fin.injEq] at h0
    rw [← h0.1]
    exact representable_zero
  unfold ParseFloat at h
  simp only at h
  split at h
  · rename_i f n hs
    split at h
    · simp only [Prod.mk.injEq] at h
      exact absurd h.1 (special_not_fin hs k)
    · exact hzero h
  · split at h
    · exact hzero h
    · rename_i lit rest _
      split at h
      · exact hzero h
      · split at h
        · simp at h
        · rename_i f hf _
          simp only [Prod.mk.injEq] at h
          have hfk := h.1
          split at hfk
          · exact ofBinary_fin_representable hfk
          · exact ofDecimal_fin_representable hfk

/-! ## Units and rational values -/

theorem unitsPerOne_cast : ((unitsPerOne : Int) : ℚ) = 2 ^ 1074 := by
  simp only [unitsPerOne, Nat.cast_pow, Nat.cast_ofNat, Int.cast_pow, Int.cast_ofNat]

theorem whole_in_range_iff (k : Int) :
    (Int.fract ((k : ℚ) / 2 ^ 1074) = 0 ∧ -(2 : ℚ) ^ 63 ≤ (k : ℚ) / 2 ^ 1074
        ∧ (k : ℚ) / 2 ^ 1074 < 2 ^ 63)
      ↔ ((unitsPerOne : Int) ∣ k ∧ -(2 ^ 63) * (unitsPerOne : Int) ≤ k
        ∧ k < 2 ^ 63 * (unitsPerOne : Int)) := by
  have hpos : (0 : ℚ) < 2 ^ 1074 := by positivity
  have hb1 : -(2 : ℚ) ^ 63 ≤ (k : ℚ) / 2 ^ 1074 ↔ -(2 ^ 63) * (unitsPerOne : Int) ≤ k := by
    rw [le_div_iff₀ hpos, ← unitsPerOne_cast]
    constructor
    · intro h
      exact_mod_cast h
    · intro h
      exact_mod_cast h
  have hb2 : (k : ℚ) / 2 ^ 1074 < 2 ^ 63 ↔ k < 2 ^ 63 * (unitsPerOne : Int) := by
    rw [div_lt_iff₀ hpos, ← unitsPerOne_cast]
    constructor
    · intro h
      exact_mod_cast h
    · intro h
      exact_mod_cast h
  have hd : Int.fract ((k : ℚ) / 2 ^ 1074) = 0 ↔ (unitsPerOne : Int) ∣ k := by
    constructor
    · intro h
      have hq := Int.floor_add_fract ((k : ℚ) / 2 ^ 1074)
      rw [h, add_zero] at hq
      have hk : (k : ℚ) = (⌊(k : ℚ) / 2 ^ 1074⌋ : ℚ) * ((unitsPerOne : Int) : ℚ) := by
        rw [hq, unitsPerOne_cast]
        field_simp
      refine ⟨⌊(k : ℚ) / 2 ^ 1074⌋, ?_⟩
      rw [mul_comm]
      exact_mod_cast hk
    · rintro ⟨n, hn⟩
      have hq : (k : ℚ) / 2 ^ 1074 = (n : ℚ) := by
        rw [hn, div_eq_iff (ne_of_gt hpos), ← unitsPerOne_cast]
        push_cast
        ring
      rw [hq]
      exact Int.fract_intCast n
  rw [hd, hb1, hb2]

/-! ## The fractional part and the cents of a total -/

theorem isZero_eq {x : Float64} (h : x.isZero = true) : x = Float64.fin 0 := by
  cases x with
  | nan => exact absurd h (by decide)
  | inf neg => exact absurd h (by simp [Float64.isZero])
  | fin k =>
    simp only [Float64.isZero, decide_eq_true_eq] at h
    rw [h]

theorem representable_mod {a : Nat} (h : Float64.Representable a) :
    Float64.Representable (a % unitsPerOne) := by
  unfold Float64.Representable at h ⊢
  have hlt : a % unitsPerOne < 2 ^ 1074 := Nat.mod_lt _ unitsPerOne_pos
  have hb1 : bitLen (a % unitsPerOne) ≤ 1074 := bitLen_le_of_lt hlt
  have hb2 : bitLen (a % unitsPerOne) ≤ bitLen a := bitLen_mono (Nat.mod_le _ _)
  have hd1 : 2 ^ (bitLen (a % unitsPerOne) - 53) ∣ unitsPerOne := Nat.pow_dvd_pow 2 (by omega)
  have hd2 : 2 ^ (bitLen (a % unitsPerOne) - 53) ∣ a :=
    Nat.dvd_trans (Nat.pow_dvd_pow 2 (by omega)) h
  exact (Nat.dvd_mod_iff hd1).mpr hd2

theorem representable_lt_one {r : Nat} (h : Float64.Representable r) (hlt : r < 2 ^ 1074) :
    r + 2 ^ 1021 ≤ 2 ^ 1074 := by
  by_cases hb : bitLen r ≤ 1073
  · have h1 : r < 2 ^ bitLen r := lt_two_pow_bitLen r
    have h2 : 2 ^ bitLen r ≤ 2 ^ 1073 := Nat.pow_le_pow_right (by decide) hb
    have h3 : (2 : Nat) ^ 1073 + 2 ^ 1021 ≤ 2 ^ 1074 := by decide
    omega
  · have hb2 : bitLen r ≤ 1074 := bitLen_le_of_lt hlt
    have hb3 : bitLen r - 53 = 1021 := by omega
    unfold Float64.Representable at h
    rw [hb3] at h
    obtain ⟨c, hc⟩ := h
    have hc2 : c < 2 ^ 53 := by
      by_contra hge
      have : 2 ^ 1021 * 2 ^ 53 ≤ 2 ^ 1021 * c := Nat.mul_le_mul_left _ (Nat.le_of_not_lt hge)
      have h4 : (2 : Nat) ^ 1021 * 2 ^ 53 = 2 ^ 1074 := by rw [← pow_add]
      omega
    have h5 : 2 ^ 1021 * (c + 1) ≤ 2 ^ 1021 * 2 ^ 53 := Nat.mul_le_mul_left _ hc2
    have h4 : (2 : Nat) ^ 1021 * 2 ^ 53 = 2 ^ 1074 := by rw [← pow_add]
    have h6 : 2 ^ 1021 * (c + 1) = 2 ^ 1021 * c + 2 ^ 1021 := by ring
    omega

theorem roundHalfEven_lt {num den m : Nat} (hden : 0 < den) (h : 2 * num + den < 2 * m * den) :
    roundHalfEven num den < m := by
  have h1 := Nat.div_add_mod num den
  have h2 := Nat.mod_lt num hden
  have hq : num / den < m := by
    apply Nat.div_lt_of_lt_mul
    rw [Nat.mul_comm]
    have : 2 * num < 2 * (m * den) := by
      rw [← Nat.mul_assoc]
      omega
    omega
  rcases Nat.lt_or_eq_of_le (Nat.succ_le_of_lt hq) with hlt | heq
  · exact Nat.lt_of_le_of_lt (roundHalfEven_le num den) hlt
  · have hm : m = num / den + 1 := heq.symm
    have h3 : 2 * m * den = 2 * (den * (num / den)) + 2 * den := by rw [hm]; ring
    have h4 : 2 * (num % den) < den := by omega
    unfold roundHalfEven
    simp only
    rw [if_pos h4]
    exact hq

theorem ofUnits_of_representable {d : Int} (h0 : 0 ≤ d)
    (hrep : Float64.Representable d.natAbs) (hlt : d.natAbs < overflowUnits) :
    Float64.ofUnits d = Float64.fin d := by
  unfold Float64.ofUnits
  have hr : roundUnits d.natAbs 1 = d.natAbs := roundUnits_of_representable hrep
  rw [round_of_lt (by rw [hr]; exact hlt), hr]
  have hneg : ¬ d < 0 := by omega
  simp only [hneg, decide_False, Bool.false_eq_true, if_false]
  congr 1
  omega

theorem fractionOf_nonneg {k : Int} (hrep : Float64.Representable k.natAbs) (h0 : 0 ≤ k)
    (h2 : k < 2 ^ 63 * (unitsPerOne : Int)) :
    fractionOf (Float64.fin k) = Float64.fin (k % (unitsPerOne : Int)) := by
  have hU := unitsPerOne_pos_int
  have ht : Int.tdiv k unitsPerOne = k / (unitsPerOne : Int) :=
    Int.tdiv_eq_ediv h0 (Int.le_of_lt hU)
  have hin : -(2 ^ 63) ≤ Int.tdiv k unitsPerOne ∧ Int.tdiv k unitsPerOne < 2 ^ 63 := by
    rw [ht]
    constructor
    · have : 0 ≤ k / (unitsPerOne : Int) := Int.ediv_nonneg h0 (Int.le_of_lt hU)
      omega
    · exact Int.ediv_lt_of_lt_mul hU h2
  unfold fractionOf Float64.toInt
  simp only
  rw [if_pos hin, ofInt_tdiv hrep hin]
  show Float64.ofUnits (k - Int.tdiv k unitsPerOne * unitsPerOne) = _
  have hmod : k - Int.tdiv k unitsPerOne * unitsPerOne = k % (unitsPerOne : Int) := by
    rw [ht, Int.emod_def, mul_comm]
  rw [hmod]
  have hm0 : 0 ≤ k % (unitsPerOne : Int) := Int.emod_nonneg _ (Int.ne_of_gt hU)
  have hm1 : k % (unitsPerOne : Int) < unitsPerOne := Int.emod_lt_of_pos _ hU
  have hnat : (k % (unitsPerOne : Int)).natAbs = k.natAbs % unitsPerOne := by
    have hk : (k.natAbs : Int) = k := Int.natAbs_of_nonneg h0
    have : ((k.natAbs % unitsPerOne : Nat) : Int) = k % (unitsPerOne : Int) := by
      rw [Int.natCast_mod, hk]
    omega
  apply ofUnits_of_representable hm0
  · rw [hnat]
    exact representable_mod hrep
  · have : unitsPerOne < overflowUnits := by decide
    omega

theorem hundredfold_lt {r : Nat} (hr : r + 2 ^ 1021 ≤ 2 ^ 1074) :
    roundUnits (100 * unitsPerOne * r) unitsPerOne < 100 * unitsPerOne := by
  have hq : 100 * unitsPerOne * r / unitsPerOne = 100 * r := by
    rw [Nat.mul_comm 100, Nat.mul_assoc, Nat.mul_div_cancel_left _ unitsPerOne_pos]
  have hlt : 100 * r < 2 ^ 1081 := by
    have : (100 : Nat) * 2 ^ 1074 < 2 ^ 1081 := by decide
    omega
  have hb := bitLen_le_of_lt hlt
  by_cases hb2 : bitLen (100 * r) ≤ 1080
  · have h1 : 100 * r < 2 ^ bitLen (100 * r) := lt_two_pow_bitLen _
    have h2 : 2 ^ bitLen (100 * r) ≤ 2 ^ 1080 := Nat.pow_le_pow_right (by decide) hb2
    have h3 : roundUnits (100 * unitsPerOne * r) unitsPerOne ≤ 2 ^ 1080 := by
      apply roundUnits_le_pow unitsPerOne_pos (by decide)
      calc 100 * unitsPerOne * r = 100 * r * unitsPerOne := by ring
        _ ≤ 2 ^ 1080 * unitsPerOne := Nat.mul_le_mul_right _ (by omega)
    have h4 : (2 : Nat) ^ 1080 < 100 * unitsPerOne := by decide
    omega
  · have hs : bitLen (100 * r) - 53 = 1028 := by omega
    unfold roundUnits
    simp only
    rw [hq, hs]
    have hn : roundHalfEven (100 * unitsPerOne * r) (unitsPerOne * 2 ^ 1028) < 100 * 2 ^ 46 := by
      apply roundHalfEven_lt (Nat.mul_pos unitsPerOne_pos (Nat.two_pow_pos _))
      have e1 : 2 * (100 * unitsPerOne * r) + unitsPerOne * 2 ^ 1028
          = unitsPerOne * (200 * r + 2 ^ 1028) := by ring
      have e2 : 2 * (100 * 2 ^ 46) * (unitsPerOne * 2 ^ 1028)
          = unitsPerOne * (200 * 2 ^ 46 * 2 ^ 1028) := by ring
      rw [e1, e2]
      apply Nat.mul_lt_mul_of_pos_left _ unitsPerOne_pos
      have e3 : (200 : Nat) * 2 ^ 46 * 2 ^ 1028 = 200 * 2 ^ 1074 := by decide
      have e4 : (2 : Nat) ^ 1028 = 128 * 2 ^ 1021 := by decide
      omega
    calc roundHalfEven (100 * unitsPerOne * r) (unitsPerOne * 2 ^ 1028) * 2 ^ 1028
        < 100 * 2 ^ 46 * 2 ^ 1028 := Nat.mul_lt_mul_of_pos_right hn (Nat.two_pow_pos _)
      _ = 100 * unitsPerOne := by decide

theorem ofInt_hundred :
    Float64.ofInt 100 = Float64.fin ((100 * unitsPerOne : Nat) : Int) := by
  decide

theorem centsOf_nonneg_total {k : Int} (hrep : Float64.Representable k.natAbs) (h0 : 0 ≤ k)
    (h2 : k < 2 ^ 63 * (unitsPerOne : Int)) :
    0 ≤ centsOf (Float64.fin k) ∧ centsOf (Float64.fin k) ≤ 99 := by
  have hU := unitsPerOne_pos_int
  have hm0 : 0 ≤ k % (unitsPerOne : Int) := Int.emod_nonneg _ (Int.ne_of_gt hU)
  have hm1 : k % (unitsPerOne : Int) < unitsPerOne := Int.emod_lt_of_pos _ hU
  obtain ⟨r, hr⟩ := Int.eq_ofNat_of_zero_le hm0
  have hrk : r = k.natAbs % unitsPerOne := by
    have hk : (k.natAbs : Int) = k := Int.natAbs_of_nonneg h0
    have : ((k.natAbs % unitsPerOne : Nat) : Int) = k % (unitsPerOne : Int) := by
      rw [Int.natCast_mod, hk]
    omega
  have hrrep : Float64.Representable r := by
    rw [hrk]
    exact representable_mod hrep
  have hrlt : r < 2 ^ 1074 := by
    have : (r : Int) < (unitsPerOne : Int) := by omega
    exact Int.ofNat_lt.mp this
  have hP := hundredfold_lt (representable_lt_one hrrep hrlt)
  have hmul : (Float64.ofInt 100).mul (Float64.fin (r : Int))
      = Float64.fin ((roundUnits (100 * unitsPerOne * r) unitsPerOne : Nat) : Int) := by
    rw [ofInt_hundred]
    show Float64.round (decide (((100 * unitsPerOne : Nat) : Int) * (r : Int) < 0))
      (((100 * unitsPerOne : Nat) : Int) * (r : Int)).natAbs unitsPerOne = _
    have hprod : ((100 * unitsPerOne : Nat) : Int) * (r : Int)
        = ((100 * unitsPerOne * r : Nat) : Int) := by push_cast; ring
    rw [hprod, Int.natAbs_ofNat]
    have hneg : ¬ ((100 * unitsPerOne * r : Nat) : Int) < 0 := by omega
    have hov : (100 : Nat) * unitsPerOne < overflowUnits := by decide
    rw [round_of_lt (Nat.lt_trans hP hov)]
    simp only [hneg, decide_False, Bool.false_eq_true, if_false]
  unfold centsOf
  rw [fractionOf_nonneg hrep h0 h2, hr, hmul]
  unfold Float64.toInt
  simp only
  have hdiv : roundUnits (100 * unitsPerOne * r) unitsPerOne / unitsPerOne < 100 :=
    Nat.div_lt_of_lt_mul (Nat.lt_of_lt_of_eq hP (Nat.mul_comm _ _))
  have ht : Int.tdiv ((roundUnits (100 * unitsPerOne * r) unitsPerOne : Nat) : Int)
      (unitsPerOne : Int)
      = ((roundUnits (100 * unitsPerOne * r) unitsPerOne / unitsPerOne : Nat) : Int) :=
    (Int.ofNat_tdiv _ _).symm
  rw [ht]
  have hc : (0 : Int) ≤ ((roundUnits (100 * unitsPerOne * r) unitsPerOne / unitsPerOne : Nat) : Int)
      ∧ ((roundUnits (100 * unitsPerOne * r) unitsPerOne / unitsPerOne : Nat) : Int) < 100 := by
    constructor
    · exact Int.ofNat_nonneg _
    · exact_mod_cast hdiv
  rw [if_pos (by omega)]
  omega

theorem toRat_eq_some {x : Float64} {q : ℚ} (h : x.toRat = some q) :
    ∃ k : Int, x = Float64.fin k ∧ q = (k : ℚ) / 2 ^ 1074 := by
  cases x with
  | nan => exact absurd h (by simp [Float64.toRat])
  | inf neg => exact absurd h (by simp [Float64.toRat])
  | fin k =>
    simp only [Float64.toRat, Option.some.injEq] at h
    exact ⟨k, rfl, h.symm⟩

theorem units_pos_iff (k : Int) : 0 < (k : ℚ) / 2 ^ 1074 ↔ 0 < k := by
  have hpos : (0 : ℚ) < 2 ^ 1074 := by positivity
  rw [div_pos_iff_of_pos_right hpos]
  exact Int.cast_pos

theorem units_eq_zero_iff (k : Int) : (k : ℚ) / 2 ^ 1074 = 0 ↔ k = 0 := by
  have hpos : (0 : ℚ) < 2 ^ 1074 := by positivity
  rw [div_eq_zero_iff]
  constructor
  · rintro (h | h)
    · exact_mod_cast h
    · exact absurd h (ne_of_gt hpos)
  · intro h
    exact Or.inl (by exact_mod_cast h)

theorem units_lt_iff (k : Int) :
    (k : ℚ) / 2 ^ 1074 < 2 ^ 63 ↔ k < 2 ^ 63 * (unitsPerOne : Int) := by
  have hpos : (0 : ℚ) < 2 ^ 1074 := by positivity
  rw [div_lt_iff₀ hpos, ← unitsPerOne_cast]
  constructor
  · intro h
    exact_mod_cast h
  · intro h
    exact_mod_cast h

/-! ## The description bonus of one item -/

theorem fifth_eq : fifth = Float64.fin ((3602879701896397 * 2 ^ 1020 : Nat) : Int) := by
  decide

theorem descriptionPoints_of_price {item : recepit_items} {price : Float64}
    (hd : utf8Len (TrimSpace item.ShortDescription.toList) % 3 = 0)
    (hp : ParseFloat item.Price = (price, none)) :
    descriptionPoints item = (price.mul fifth).ceil.toInt := by
  unfold descriptionPoints
  rw [if_pos hd, hp]

theorem descriptionPoints_of_length {item : recepit_items}
    (hd : utf8Len (TrimSpace item.ShortDescription.toList) % 3 ≠ 0) :
    descriptionPoints item = 0 := by
  unfold descriptionPoints
  rw [if_neg hd]

/-! ## Signs of the contributions -/

theorem roundDollarPoints_nonneg (total : String) : 0 ≤ roundDollarPoints total := by
  unfold roundDollarPoints
  split
  split <;> decide

theorem quarterDollarPoints_nonneg (total : String) : 0 ≤ quarterDollarPoints total := by
  unfold quarterDollarPoints
  split
  split <;> decide

theorem datePoints_nonneg (purchaseDate : String) : 0 ≤ datePoints purchaseDate := by
  unfold datePoints
  split
  · split <;> decide
  · decide

theorem timePoints_nonneg (purchaseTime : String) : 0 ≤ timePoints purchaseTime := by
  unfold timePoints
  split
  · simp only
    split <;> decide
  · decide

theorem mul_fifth_ceil_nonneg {k : Int} (h0 : 0 ≤ k) (h2 : k < 2 ^ 63 * (unitsPerOne : Int)) :
    0 ≤ ((Float64.fin k).mul fifth).ceil.toInt := by
  have hU := unitsPerOne_pos_int
  obtain ⟨n, hn⟩ := Int.eq_ofNat_of_zero_le h0
  subst hn
  have hn2 : n < 2 ^ 63 * unitsPerOne := by exact_mod_cast h2
  rw [fifth_eq]
  show 0 ≤ (Float64.round (decide ((n : Int) * ((3602879701896397 * 2 ^ 1020 : Nat) : Int) < 0))
    ((n : Int) * ((3602879701896397 * 2 ^ 1020 : Nat) : Int)).natAbs unitsPerOne).ceil.toInt
  have hprod : (n : Int) * ((3602879701896397 * 2 ^ 1020 : Nat) : Int)
      = ((n * (3602879701896397 * 2 ^ 1020) : Nat) : Int) := by push_cast; ring
  rw [hprod, Int.natAbs_ofNat]
  have hneg : ¬ ((n * (3602879701896397 * 2 ^ 1020) : Nat) : Int) < 0 := by omega
  have hP : roundUnits (n * (3602879701896397 * 2 ^ 1020)) unitsPerOne ≤ 2 ^ 1136 := by
    apply roundUnits_le_pow unitsPerOne_pos (by decide)
    have hc : 3602879701896397 * 2 ^ 1020 ≤ 2 ^ 1072 := by decide
    calc n * (3602879701896397 * 2 ^ 1020)
        ≤ 2 ^ 63 * unitsPerOne * (3602879701896397 * 2 ^ 1020) :=
          Nat.mul_le_mul_right _ (Nat.le_of_lt hn2)
      _ ≤ 2 ^ 63 * unitsPerOne * 2 ^ 1072 := Nat.mul_le_mul_left _ hc
      _ ≤ 2 ^ 1136 * unitsPerOne := by decide
  have hov : (2 : Nat) ^ 1136 < overflowUnits := by decide
  rw [round_of_lt (Nat.lt_of_le_of_lt hP hov)]
  simp only [hneg, decide_False, Bool.false_eq_true, if_false]
  generalize roundUnits (n * (3602879701896397 * 2 ^ 1020)) unitsPerOne = P at hP
  unfold Float64.ceil Float64.toInt
  simp only
  rw [Int.mul_tdiv_cancel _ (Int.ne_of_gt hU)]
  have hPi : (P : Int) ≤ 2 ^ 62 * (unitsPerOne : Int) := by
    have : (2 : Nat) ^ 1136 = 2 ^ 62 * unitsPerOne := by decide
    rw [this] at hP
    exact_mod_cast hP
  have hlo : -(2 ^ 62) ≤ -(P : Int) / (unitsPerOne : Int) := by
    apply Int.le_ediv_of_mul_le hU
    have : -(2 ^ 62) * (unitsPerOne : Int) = -(2 ^ 62 * (unitsPerOne : Int)) := by ring
    omega
  have hhi : -(P : Int) / (unitsPerOne : Int) ≤ 0 := by
    have h := Int.ediv_le_ediv hU (show -(P : Int) ≤ 0 by omega)
    simpa using h
  rw [if_pos (by omega)]
  omega

theorem descriptionPoints_nonneg {item : recepit_items}
    (h : utf8Len (TrimSpace item.ShortDescription.toList) % 3 = 0 →
      ∀ price, ParseFloat item.Price = (price, none) →
        ∃ q : ℚ, price.toRat = some q ∧ 0 ≤ q ∧ q < 2 ^ 63) :
    0 ≤ descriptionPoints item := by
  by_cases hd : utf8Len (TrimSpace item.ShortDescription.toList) % 3 = 0
  · cases hp : ParseFloat item.Price with
    | mk price err =>
      cases err with
      | some e =>
        rw [descriptionPoints_error (by rw [hp]; simp)]
      | none =>
        obtain ⟨q, hq, h0, h2⟩ := h hd price hp
        obtain ⟨k, hk, hqk⟩ := toRat_eq_some hq
        subst hqk
        subst hk
        rw [descriptionPoints_of_price hd hp]
        apply mul_fifth_ceil_nonneg
        · have hpos : (0 : ℚ) < 2 ^ 1074 := by positivity
          have hk : (0 : ℚ) ≤ (k : ℚ) := by
            rcases div_nonneg_iff.mp h0 with h | h
            · exact h.1
            · exact absurd h.2 (not_le.mpr hpos)
          exact_mod_cast hk
        · exact (units_lt_iff k).mp h2
  · rw [descriptionPoints_of_length hd]

/-! ## The two handlers on the store -/

theorem ProcessRecepitsHandler_ok (t : UnicodeTables) (pointsMap : PointsMap)
    (recepit : process_recepits_request) (id : String) :
    ProcessRecepitsHandler t pointsMap (.ok recepit) id
      = (.processed 200 ⟨id, computePoints t recepit⟩,
          fun k => if k = id then some (computePoints t recepit) else pointsMap k) :=
  rfl

theorem GetPointsHandler_store (pointsMap : PointsMap) (id : String) :
    (GetPointsHandler pointsMap id).2 = pointsMap :=
  rfl

theorem fetches_keep_store (ids : List String) (pointsMap : PointsMap) :
    ids.foldl (fun m k => (GetPointsHandler m k).2) pointsMap = pointsMap := by
  induction ids with
  | nil => rfl
  | cons k ks ih =>
    rw [List.foldl_cons, GetPointsHandler_store]
    exact ih

theorem fetch_iterate_store (id : String) (n : Nat) (pointsMap : PointsMap) :
    (fun m => (GetPointsHandler m id).2)^[n] pointsMap = pointsMap := by
  induction n with
  | zero => rfl
  | succ n ih =>
    rw [Function.iterate_succ_apply, GetPointsHandler_store]
    exact ih

/-! ## Descriptions made of ASCII characters -/

theorem utf8Size_of_ascii {c : Char} (h : c.toNat < 128) : c.utf8Size = 1 := by
  unfold Char.utf8Size
  simp only
  rw [if_pos]
  show c.toNat ≤ 127
  omega

theorem utf8Len_of_ascii {s : List Char} (h : ∀ c ∈ s, c.toNat < 128) :
    utf8Len s = s.length := by
  unfold utf8Len
  induction s with
  | nil => rfl
  | cons c cs ih =>
    simp only [List.map_cons, List.sum_cons, List.length_cons]
    rw [utf8Size_of_ascii (h c (List.mem_cons_self _ _)),
      ih fun d hd => h d (List.mem_cons_of_mem _ hd)]
    omega

theorem mem_of_mem_TrimSpace {s : List Char} {c : Char} (h : c ∈ TrimSpace s) : c ∈ s := by
  unfold TrimSpace at h
  have h1 := List.mem_reverse.mp h
  have h2 := (List.dropWhile_sublist IsSpace).subset h1
  have h3 := List.mem_reverse.mp h2
  exact (List.dropWhile_sublist IsSpace).subset h3

/-! ## The items in another order -/

theorem exactPoints_perm (t : UnicodeTables) (recepit : process_recepits_request)
    (items : List recepit_items) (h : items.Perm recepit.Items) :
    exactPoints t { recepit with Items := items } = exactPoints t recepit := by
  unfold exactPoints
  simp only
  rw [h.length_eq, (h.map descriptionPoints).sum_eq]

/-! ## Rounding stays within half a spacing -/

theorem roundHalfEven_near (num : Nat) {den : Nat} (hden : 0 < den) :
    2 * (roundHalfEven num den * den) ≤ 2 * num + den
      ∧ 2 * num ≤ 2 * (roundHalfEven num den * den) + den := by
  have h1 := Nat.div_add_mod num den
  have h2 := Nat.mod_lt num hden
  have e1 : num / den * den = den * (num / den) := Nat.mul_comm _ _
  have e2 : (num / den + 1) * den = den * (num / den) + den := by ring
  unfold roundHalfEven
  simp only
  split
  · rw [e1]
    omega
  · split
    · rw [e2]
      omega
    · split
      · rw [e1]
        omega
      · rw [e2]
        omega

theorem roundUnits_near {num den b : Nat} (hden : 0 < den) (hb : num / den < 2 ^ (b + 53)) :
    2 * (roundUnits num den * den) ≤ 2 * num + den * 2 ^ b
      ∧ 2 * num ≤ 2 * (roundUnits num den * den) + den * 2 ^ b := by
  have hs : bitLen (num / den) - 53 ≤ b := by
    have := bitLen_le_of_lt hb
    omega
  have hpow : 2 ^ (bitLen (num / den) - 53) ≤ 2 ^ b := Nat.pow_le_pow_right (by decide) hs
  have hle : den * 2 ^ (bitLen (num / den) - 53) ≤ den * 2 ^ b := Nat.mul_le_mul_left _ hpow
  obtain ⟨h1, h2⟩ := roundHalfEven_near num
    (Nat.mul_pos hden (Nat.two_pow_pos (bitLen (num / den) - 53)))
  have e : roundUnits num den * den
      = roundHalfEven num (den * 2 ^ (bitLen (num / den) - 53))
          * (den * 2 ^ (bitLen (num / den) - 53)) := by
    unfold roundUnits
    simp only
    ring
  rw [e]
  omega

theorem roundUnits_exact {n den : Nat} (hden : 0 < den) (h : Float64.Representable n) :
    roundUnits (n * den) den = n := by
  unfold roundUnits
  unfold Float64.Representable at h
  simp only
  rw [Nat.mul_div_cancel _ hden]
  have hd : den * 2 ^ (bitLen n - 53) ∣ n * den := by
    rw [Nat.mul_comm n den]
    exact Nat.mul_dvd_mul_left den h
  rw [roundHalfEven_of_dvd (Nat.mul_pos hden (Nat.two_pow_pos _)) hd, Nat.mul_comm n den,
    Nat.mul_div_mul_left _ _ hden, Nat.div_mul_cancel h]

/-! ## Negative totals -/

theorem ofUnits_neg_of_representable {d : Nat} (hrep : Float64.Representable d)
    (hlt : d < overflowUnits) :
    Float64.ofUnits (-(d : Int)) = Float64.fin (-(d : Int)) := by
  unfold Float64.ofUnits
  have hn : (-(d : Int)).natAbs = d := by omega
  rw [hn]
  have hr : roundUnits d 1 = d := roundUnits_of_representable hrep
  rw [round_of_lt (by rw [hr]; exact hlt), hr]
  by_cases h0 : d = 0
  · subst h0
    simp
  · have hneg : -(d : Int) < 0 := by omega
    simp only [hneg, decide_True, if_true]

theorem fractionOf_neg {n : Nat} (hrep : Float64.Representable n)
    (h2 : n < 2 ^ 63 * unitsPerOne) :
    fractionOf (Float64.fin (-(n : Int)))
      = Float64.fin (-((n % unitsPerOne : Nat) : Int)) := by
  have ht : Int.tdiv (-(n : Int)) unitsPerOne = -((n / unitsPerOne : Nat) : Int) := by
    rw [Int.neg_tdiv, Int.ofNat_tdiv]
  have hdiv : n / unitsPerOne < 2 ^ 63 :=
    Nat.div_lt_of_lt_mul (Nat.lt_of_lt_of_eq h2 (Nat.mul_comm _ _))
  have hin : -(2 ^ 63) ≤ Int.tdiv (-(n : Int)) unitsPerOne
      ∧ Int.tdiv (-(n : Int)) unitsPerOne < 2 ^ 63 := by
    rw [ht]
    generalize n / unitsPerOne = a at hdiv
    omega
  have hrep2 : Float64.Representable (-(n : Int)).natAbs := by
    rw [Int.natAbs_neg, Int.natAbs_ofNat]
    exact hrep
  unfold fractionOf Float64.toInt
  simp only
  rw [if_pos hin, ofInt_tdiv hrep2 hin]
  show Float64.ofUnits (-(n : Int) - Int.tdiv (-(n : Int)) unitsPerOne * unitsPerOne) = _
  have hsplit : (n : Int) = (unitsPerOne : Int) * ((n / unitsPerOne : Nat) : Int)
      + ((n % unitsPerOne : Nat) : Int) := by
    exact_mod_cast (Nat.div_add_mod n unitsPerOne).symm
  have hmod : -(n : Int) - Int.tdiv (-(n : Int)) unitsPerOne * unitsPerOne
      = -((n % unitsPerOne : Nat) : Int) := by
    rw [ht]
    linear_combination (-1 : Int) * hsplit
  rw [hmod]
  apply ofUnits_neg_of_representable (representable_mod hrep)
  have h3 : n % unitsPerOne < unitsPerOne := Nat.mod_lt _ unitsPerOne_pos
  have h4 : unitsPerOne < overflowUnits := by decide
  omega

theorem mul_hundred_nonneg {r : Nat} (hr : r + 2 ^ 1021 ≤ 2 ^ 1074) :
    (Float64.ofInt 100).mul (Float64.fin (r : Int))
      = Float64.fin ((roundUnits (100 * unitsPerOne * r) unitsPerOne : Nat) : Int) := by
  have hP := hundredfold_lt hr
  rw [ofInt_hundred]
  show Float64.round (decide (((100 * unitsPerOne : Nat) : Int) * (r : Int) < 0))
    (((100 * unitsPerOne : Nat) : Int) * (r : Int)).natAbs unitsPerOne = _
  have hprod : ((100 * unitsPerOne : Nat) : Int) * (r : Int)
      = ((100 * unitsPerOne * r : Nat) : Int) := by push_cast; ring
  rw [hprod, Int.natAbs_ofNat]
  have hneg : ¬ ((100 * unitsPerOne * r : Nat) : Int) < 0 := by omega
  have hov : (100 : Nat) * unitsPerOne < overflowUnits := by decide
  rw [round_of_lt (Nat.lt_trans hP hov)]
  simp only [hneg, decide_False, Bool.false_eq_true, if_false]

theorem mul_hundred_neg {r : Nat} (hr : r + 2 ^ 1021 ≤ 2 ^ 1074) :
    (Float64.ofInt 100).mul (Float64.fin (-(r : Int)))
      = Float64.fin (-((roundUnits (100 * unitsPerOne * r) unitsPerOne : Nat) : Int)) := by
  have hP := hundredfold_lt hr
  rw [ofInt_hundred]
  show Float64.round (decide (((100 * unitsPerOne : Nat) : Int) * (-(r : Int)) < 0))
    (((100 * unitsPerOne : Nat) : Int) * (-(r : Int))).natAbs unitsPerOne = _
  have hprod : ((100 * unitsPerOne : Nat) : Int) * (-(r : Int))
      = -((100 * unitsPerOne * r : Nat) : Int) := by push_cast; ring
  rw [hprod, Int.natAbs_neg, Int.natAbs_ofNat]
  have hov : (100 : Nat) * unitsPerOne < overflowUnits := by decide
  rw [round_of_lt (Nat.lt_trans hP hov)]
  by_cases h0 : r = 0
  · subst h0
    simp [roundUnits_zero]
  · have hpos : 0 < 100 * unitsPerOne * r :=
      Nat.mul_pos (Nat.mul_pos (by decide) unitsPerOne_pos) (Nat.pos_of_ne_zero h0)
    have hneg : -((100 * unitsPerOne * r : Nat) : Int) < 0 := by omega
    simp only [hneg, decide_True, if_true]

theorem centsOf_nonneg_eq {n : Nat} (hrep : Float64.Representable n)
    (h2 : n < 2 ^ 63 * unitsPerOne) :
    centsOf (Float64.fin (n : Int))
      = ((roundUnits (100 * unitsPerOne * (n % unitsPerOne)) unitsPerOne / unitsPerOne : Nat)
          : Int) := by
  have hrlt : n % unitsPerOne < 2 ^ 1074 := Nat.mod_lt _ unitsPerOne_pos
  have hr := representable_lt_one (representable_mod hrep) hrlt
  have hP := hundredfold_lt hr
  have hfr : fractionOf (Float64.fin (n : Int))
      = Float64.fin ((n % unitsPerOne : Nat) : Int) := by
    rw [fractionOf_nonneg (by rw [Int.natAbs_ofNat]; exact hrep) (Int.ofNat_nonneg n)
      (by exact_mod_cast h2), Int.natCast_mod]
  unfold centsOf
  rw [hfr, mul_hundred_nonneg hr]
  unfold Float64.toInt
  simp only
  have hdiv : roundUnits (100 * unitsPerOne * (n % unitsPerOne)) unitsPerOne / unitsPerOne
      < 100 := Nat.div_lt_of_lt_mul (Nat.lt_of_lt_of_eq hP (Nat.mul_comm _ _))
  rw [← Int.ofNat_tdiv]
  generalize roundUnits (100 * unitsPerOne * (n % unitsPerOne)) unitsPerOne / unitsPerOne
    = t at hdiv
  rw [if_pos (by omega)]

theorem centsOf_neg_eq {n : Nat} (hrep : Float64.Representable n)
    (h2 : n < 2 ^ 63 * unitsPerOne) :
    centsOf (Float64.fin (-(n : Int)))
      = -((roundUnits (100 * unitsPerOne * (n % unitsPerOne)) unitsPerOne / unitsPerOne : Nat)
          : Int) := by
  have hrlt : n % unitsPerOne < 2 ^ 1074 := Nat.mod_lt _ unitsPerOne_pos
  have hr := representable_lt_one (representable_mod hrep) hrlt
  have hP := hundredfold_lt hr
  unfold centsOf
  rw [fractionOf_neg hrep h2, mul_hundred_neg hr]
  unfold Float64.toInt
  simp only
  have hdiv : roundUnits (100 * unitsPerOne * (n % unitsPerOne)) unitsPerOne / unitsPerOne
      < 100 := Nat.div_lt_of_lt_mul (Nat.lt_of_lt_of_eq hP (Nat.mul_comm _ _))
  rw [Int.neg_tdiv, ← Int.ofNat_tdiv]
  generalize roundUnits (100 * unitsPerOne * (n % unitsPerOne)) unitsPerOne / unitsPerOne
    = t at hdiv
  rw [if_pos (by omega)]

/-! ## Totals in whole cents -/

theorem whole_cents_trunc {D c : Nat} (hD : D < 2 ^ 47) (h1 : 1 ≤ c) (hc : c < 100) :
    0 < roundUnits ((100 * D + c) * unitsPerOne) 100
    ∧ roundUnits ((100 * D + c) * unitsPerOne) 100 < 2 ^ 63 * unitsPerOne
    ∧ (roundUnits (100 * unitsPerOne
          * (roundUnits ((100 * D + c) * unitsPerOne) 100 % unitsPerOne)) unitsPerOne
          / unitsPerOne = c
        ∨ roundUnits (100 * unitsPerOne
            * (roundUnits ((100 * D + c) * unitsPerOne) 100 % unitsPerOne)) unitsPerOne
            / unitsPerOne + 1 = c) := by
  have hb1 : (100 * D + c) * unitsPerOne / 100 < 2 ^ (1068 + 53) := by
    apply Nat.div_lt_of_lt_mul
    unfold unitsPerOne
    omega
  obtain ⟨n1, n2⟩ := roundUnits_near (by decide : 0 < 100) hb1
  clear hb1
  generalize roundUnits ((100 * D + c) * unitsPerOne) 100 = R at n1 n2 ⊢
  have hlo : D * 2 ^ 1074 + 2 ^ 1064 ≤ R := by
    unfold unitsPerOne at n2
    omega
  have hhi : R + 2 ^ 1064 ≤ (D + 1) * 2 ^ 1074 := by
    unfold unitsPerOne at n1
    omega
  have hmod : R % unitsPerOne = R - D * 2 ^ 1074 := by
    unfold unitsPerOne
    omega
  rw [hmod]
  have hb2 : 100 * unitsPerOne * (R - D * 2 ^ 1074) / unitsPerOne < 2 ^ (1028 + 53) := by
    apply Nat.div_lt_of_lt_mul
    unfold unitsPerOne
    omega
  obtain ⟨m1, m2⟩ := roundUnits_near unitsPerOne_pos hb2
  clear hb2
  generalize roundUnits (100 * unitsPerOne * (R - D * 2 ^ 1074)) unitsPerOne = P at m1 m2 ⊢
  have hPlo : (c - 1) * 2 ^ 1074 ≤ P := by
    unfold unitsPerOne at m2 n2
    omega
  have hPhi : P < (c + 1) * 2 ^ 1074 := by
    unfold unitsPerOne at m1 n1
    omega
  refine ⟨by omega, by unfold unitsPerOne; omega, ?_⟩
  clear m1 m2 n1 n2 hmod
  unfold unitsPerOne
  omega

theorem quarter_units {D j : Nat} (hD : D < 2 ^ 47) (hj : j < 4) :
    roundUnits ((100 * D + 25 * j) * unitsPerOne) 100 = (4 * D + j) * 2 ^ 1072 := by
  have e : (100 * D + 25 * j) * unitsPerOne = (4 * D + j) * 2 ^ 1072 * 100 := by
    unfold unitsPerOne
    omega
  rw [e]
  exact roundUnits_exact (by decide) (representable_mul_pow (by omega))

theorem centsOf_quarter {m : Nat} (hrep : Float64.Representable (m * 2 ^ 1072))
    (h2 : m * 2 ^ 1072 < 2 ^ 63 * unitsPerOne) :
    centsOf (Float64.fin ((m * 2 ^ 1072 : Nat) : Int)) = ((25 * (m % 4) : Nat) : Int)
    ∧ centsOf (Float64.fin (-((m * 2 ^ 1072 : Nat) : Int))) = -((25 * (m % 4) : Nat) : Int) := by
  have hmod : m * 2 ^ 1072 % unitsPerOne = m % 4 * 2 ^ 1072 := by
    unfold unitsPerOne
    omega
  have hcases : roundUnits (100 * unitsPerOne * (m % 4 * 2 ^ 1072)) unitsPerOne / unitsPerOne
      = 25 * (m % 4) := by
    have h4 : m % 4 = 0 ∨ m % 4 = 1 ∨ m % 4 = 2 ∨ m % 4 = 3 := by omega
    rcases h4 with h | h | h | h <;> rw [h] <;> decide
  rw [centsOf_nonneg_eq hrep h2, centsOf_neg_eq hrep h2, hmod, hcases]
  exact ⟨rfl, rfl⟩

theorem quarterDollarPoints_fin {total : String} {k : Int} {e : Option NumError}
    (hp : ParseFloat total = (Float64.fin k, e)) :
    quarterDollarPoints total
      = if k ≠ 0 ∧ Int.tmod (centsOf (Float64.fin k)) 25 = 0 then 25 else 0 := by
  unfold quarterDollarPoints
  rw [hp]
  simp only [Float64.isZero, Bool.not_eq_true', decide_eq_false_iff_not]

theorem cents_of_quarter_total {k : Int} (hrep : Float64.Representable k.natAbs)
    (h1 : -(2 ^ 63) * (unitsPerOne : Int) ≤ k) (h2 : k < 2 ^ 63 * (unitsPerOne : Int))
    (hd : ((2 ^ 1072 : Nat) : Int) ∣ k) :
    Int.tmod (centsOf (Float64.fin k)) 25 = 0
    ∧ (0 ≤ k →
        centsOf (Float64.fin k) * (unitsPerOne : Int) = 100 * (k % (unitsPerOne : Int))) := by
  have hdn : 2 ^ 1072 ∣ k.natAbs := by
    have := Int.natAbs_dvd_natAbs.mpr hd
    simpa using this
  obtain ⟨m, hm⟩ := hdn
  rw [Nat.mul_comm] at hm
  rw [hm] at hrep
  rcases Int.lt_or_le k 0 with hneg | hpos
  · by_cases hmin : k = -(2 ^ 63) * (unitsPerOne : Int)
    · subst hmin
      exact ⟨by decide, fun h => absurd h (by decide)⟩
    · have hk : k = -((m * 2 ^ 1072 : Nat) : Int) := by omega
      have hn2 : m * 2 ^ 1072 < 2 ^ 63 * unitsPerOne := by
        have hU := unitsPerOne_pos_int
        omega
      rw [hk, (centsOf_quarter hrep hn2).2]
      refine ⟨?_, fun h => ?_⟩
      · rw [← Int.dvd_iff_tmod_eq_zero]
        omega
      · omega
  · have hk : k = ((m * 2 ^ 1072 : Nat) : Int) := by omega
    have hn2 : m * 2 ^ 1072 < 2 ^ 63 * unitsPerOne := by
      have hU := unitsPerOne_pos_int
      omega
    rw [hk, (centsOf_quarter hrep hn2).1]
    refine ⟨?_, fun _ => ?_⟩
    · rw [← Int.dvd_iff_tmod_eq_zero]
      omega
    · unfold unitsPerOne
      push_cast
      omega

theorem cents_of_whole_cents (neg : Bool) {D c : Nat} (hD : D < 2 ^ 47) (h1 : 1 ≤ c)
    (hc : c < 100) :
    ∃ k : Int, Float64.ofDecimal neg (100 * D + c) (-2) = Float64.fin k ∧ k ≠ 0
      ∧ ∃ t : Nat, (t = c ∨ t + 1 = c)
          ∧ (centsOf (Float64.fin k) = (t : Int) ∨ centsOf (Float64.fin k) = -(t : Int)) := by
  obtain ⟨hR0, hR2, ht⟩ := whole_cents_trunc hD h1 hc
  have hrep := roundUnits_representable ((100 * D + c) * unitsPerOne) 100 (by decide)
  have hov : roundUnits ((100 * D + c) * unitsPerOne) 100 < overflowUnits := by
    have : 2 ^ 63 * unitsPerOne < overflowUnits := by decide
    omega
  have hx : Float64.ofDecimal neg (100 * D + c) (-2)
      = Float64.round neg ((100 * D + c) * unitsPerOne) 100 := rfl
  rw [hx, round_of_lt hov]
  generalize roundUnits ((100 * D + c) * unitsPerOne) 100 = R at hR0 hR2 ht hrep
  cases neg
  · exact ⟨R, rfl, by omega, _, ht, Or.inl (centsOf_nonneg_eq hrep hR2)⟩
  · exact ⟨-(R : Int), rfl, by omega, _, ht, Or.inr (centsOf_neg_eq hrep hR2)⟩

theorem ofDecimal_quarter (neg : Bool) {D j : Nat} (hD : D < 2 ^ 47) (hj : j < 4) :
    Float64.ofDecimal neg (100 * D + 25 * j) (-2)
      = Float64.fin (if neg then -(((4 * D + j) * 2 ^ 1072 : Nat) : Int)
          else (((4 * D + j) * 2 ^ 1072 : Nat) : Int)) := by
  have hx : Float64.ofDecimal neg (100 * D + 25 * j) (-2)
      = Float64.round neg ((100 * D + 25 * j) * unitsPerOne) 100 := rfl
  have hq := quarter_units hD hj
  have hov : roundUnits ((100 * D + 25 * j) * unitsPerOne) 100 < overflowUnits := by
    rw [hq]
    unfold overflowUnits
    omega
  rw [hx, round_of_lt hov, hq]

theorem quarter_dvd {k : Int}
    (h : 100 * Int.fract ((k : ℚ) / 2 ^ 1074) = 0 ∨ 100 * Int.fract ((k : ℚ) / 2 ^ 1074) = 25
      ∨ 100 * Int.fract ((k : ℚ) / 2 ^ 1074) = 50
      ∨ 100 * Int.fract ((k : ℚ) / 2 ^ 1074) = 75) :
    ((2 ^ 1072 : Nat) : Int) ∣ k := by
  have hpos : (0 : ℚ) < 2 ^ 1074 := by positivity
  have e : (2 : ℚ) ^ 1074 = 4 * 2 ^ 1072 := by norm_num
  obtain ⟨j, hj⟩ : ∃ j : Int, Int.fract ((k : ℚ) / 2 ^ 1074) = (j : ℚ) / 4 := by
    rcases h with h | h | h | h
    · exact ⟨0, by push_cast; linarith⟩
    · exact ⟨1, by push_cast; linarith⟩
    · exact ⟨2, by push_cast; linarith⟩
    · exact ⟨3, by push_cast; linarith⟩
  obtain ⟨z, hz⟩ : ∃ z : Int, (k : ℚ) / 2 ^ 1074 = (z : ℚ) + (j : ℚ) / 4 := by
    have hq := Int.floor_add_fract ((k : ℚ) / 2 ^ 1074)
    rw [hj] at hq
    exact ⟨_, hq.symm⟩
  have hk : (k : ℚ) = ((2 ^ 1072 : Nat) : ℚ) * (4 * (z : ℚ) + (j : ℚ)) := by
    rw [(div_eq_iff (ne_of_gt hpos)).mp hz, e]
    push_cast
    ring
  exact ⟨4 * z + j, by exact_mod_cast hk⟩

/-! ## A total written as dollars and cents -/

theorem isDigit_ne {c : Char} (h : isDigit c = true) :
    c ≠ '_' ∧ c ≠ '.' ∧ c ≠ '+' ∧ c ≠ '-' ∧ c ≠ 'i' ∧ c ≠ 'I' ∧ c ≠ 'n' ∧ c ≠ 'N' := by
  refine ⟨?_, ?_, ?_, ?_, ?_, ?_, ?_, ?_⟩ <;> (intro hc; subst hc; exact absurd h (by decide))

theorem readDigits_digits (ds : List Char) (hds : ∀ c ∈ ds, isDigit c = true) :
    ∀ (rest : List Char) (st : DigitState), (st.nd = 0 → st.mantissa = 0) →
      ∃ st2 : DigitState, readDigits false (ds ++ rest) st = readDigits false rest st2
        ∧ st2.mantissa = digitsValue st.mantissa ds
        ∧ st2.sawdot = st.sawdot ∧ st2.underscores = st.underscores
        ∧ (st.sawdigits = true ∨ ds ≠ [] → st2.sawdigits = true)
        ∧ (st2.nd = 0 → st2.mantissa = 0)
        ∧ st2.dp - (st2.nd : Int) = st.dp - (st.nd : Int) - (ds.length : Int) := by
  induction ds with
  | nil =>
    intro rest st hinv
    exact ⟨st, rfl, rfl, rfl, rfl, fun h => h.elim id (fun h => absurd rfl h), hinv, by simp⟩
  | cons c ds ih =>
    intro rest st hinv
    have hc := hds c (List.mem_cons_self _ _)
    obtain ⟨h1, h2, -⟩ := isDigit_ne hc
    have ih2 := ih (fun x hx => hds x (List.mem_cons_of_mem _ hx)) rest
    by_cases hz : c = '0' ∧ st.nd = 0
    · obtain ⟨st2, e, hm, hd, hu, hs, hi, hdp⟩ :=
        ih2 { st with sawdigits := true, dp := st.dp - 1 } hinv
      refine ⟨st2, ?_, ?_, hd, hu, fun _ => hs (Or.inl rfl), hi, ?_⟩
      · rw [← e]
        show readDigits false (c :: (ds ++ rest)) st = _
        rw [readDigits, if_neg h1, if_neg h2, if_pos hc, if_pos hz]
      · rw [hm]
        show digitsValue st.mantissa ds = digitsValue (st.mantissa * 10 + (c.toNat - 0x30)) ds
        rw [hinv hz.2, hz.1]
        rfl
      · simp only [List.length_cons] at hdp ⊢
        push_cast
        omega
    · obtain ⟨st2, e, hm, hd, hu, hs, hi, hdp⟩ :=
        ih2 ⟨st.mantissa * 10 + (c.toNat - 0x30), st.nd + 1, st.dp, st.sawdot, true,
          st.underscores⟩ (fun h => absurd h (Nat.succ_ne_zero _))
      refine ⟨st2, ?_, hm, hd, hu, fun _ => hs (Or.inl rfl), hi, ?_⟩
      · rw [← e]
        show readDigits false (c :: (ds ++ rest)) st = _
        rw [readDigits, if_neg h1, if_neg h2, if_pos hc, if_neg hz]
        rfl
      · simp only [List.length_cons] at hdp ⊢
        push_cast at hdp ⊢
        omega

theorem lower_ne_x {c : Char} (h : isDigit c = true ∨ c = '.') : lower c ≠ 0x78 := by
  rcases h with h | h
  · unfold isDigit at h
    simp only [Bool.and_eq_true, decide_eq_true_eq] at h
    unfold lower
    obtain ⟨h1, h2⟩ := h
    generalize c.toNat = n at h1 h2
    interval_cases n <;> decide
  · subst h
    decide

theorem readDigits_dollars_cents (d : Char) (ds : List Char) (a b : Char)
    (hd : isDigit d = true) (hds : ∀ c ∈ ds, isDigit c = true)
    (ha : isDigit a = true) (hb : isDigit b = true) :
    ∃ st : DigitState,
      readDigits false (d :: ds ++ ['.', a, b]) ⟨0, 0, 0, false, false, false⟩ = (st, [])
      ∧ st.mantissa = digitsValue 0 (d :: ds ++ [a, b])
      ∧ st.sawdot = true ∧ st.underscores = false ∧ st.sawdigits = true
      ∧ st.dp - (st.nd : Int) = -2 := by
  have hall : ∀ c ∈ d :: ds, isDigit c = true := by
    intro c hc
    rcases List.mem_cons.mp hc with h | h
    · rw [h]
      exact hd
    · exact hds c h
  have hab : ∀ c ∈ [a, b], isDigit c = true := by
    intro c hc
    simp only [List.mem_cons, List.mem_singleton, List.not_mem_nil, or_false] at hc
    rcases hc with h | h <;> rw [h] <;> assumption
  obtain ⟨st1, e1, m1, d1, u1, s1, i1, -⟩ :=
    readDigits_digits (d :: ds) hall ['.', a, b] ⟨0, 0, 0, false, false, false⟩ (fun _ => rfl)
  obtain ⟨st2, e2, m2, d2, u2, s2, -, p2⟩ :=
    readDigits_digits [a, b] hab [] ⟨st1.mantissa, st1.nd, st1.nd, true, st1.sawdigits,
      st1.underscores⟩ i1
  refine ⟨st2, ?_, ?_, d2, ?_, ?_, ?_⟩
  · rw [e1]
    show readDigits false ('.' :: [a, b]) st1 = _
    rw [readDigits, if_neg (by decide), if_pos rfl, d1]
    simp only [Bool.false_eq_true, if_false]
    rw [List.append_nil] at e2
    rw [e2]
    rfl
  · rw [m2, m1]
    unfold digitsValue
    rw [← List.foldl_append]
  · rw [u2]
    exact u1
  · exact s2 (Or.inr (by simp))
  · simp only [List.length_cons, List.length_nil] at p2
    push_cast at p2
    omega

theorem readFloat_dollars_cents (d : Char) (ds : List Char) (a b : Char)
    (hd : isDigit d = true) (hds : ∀ c ∈ ds, isDigit c = true)
    (ha : isDigit a = true) (hb : isDigit b = true) :
    readFloat (d :: ds ++ ['.', a, b])
      = some (⟨false, digitsValue 0 (d :: ds ++ [a, b]),
          if digitsValue 0 (d :: ds ++ [a, b]) ≠ 0 then -2 else 0, false⟩, []) := by
  obtain ⟨st, hrd, hm, hdot, hu, hsd, hdp⟩ := readDigits_dollars_cents d ds a b hd hds ha hb
  obtain ⟨-, -, hplus, hminus, -⟩ := isDigit_ne hd
  unfold readFloat
  cases ds with
  | nil =>
    have hx : ¬ (d = '0' ∧ lower '.' = 0x78) := fun h => absurd h.2 (by decide)
    simp only [List.cons_append, List.nil_append] at hrd hm ⊢
    simp only [hplus, hminus, if_false, reduceCtorEq, hx, hrd, hsd, hdot, hu]
    simp [hm, hdp]
  | cons d2 ds2 =>
    have hx : ¬ (d = '0' ∧ lower d2 = 0x78) :=
      fun h => absurd h.2 (lower_ne_x (Or.inl (hds d2 (List.mem_cons_self _ _))))
    cases ds2 with
    | nil =>
      simp only [List.cons_append, List.nil_append] at hrd hm ⊢
      simp only [hplus, hminus, if_false, reduceCtorEq, hx, hrd, hsd, hdot, hu]
      simp [hm, hdp]
    | cons d3 ds3 =>
      simp only [List.cons_append, List.nil_append] at hrd hm ⊢
      simp only [hplus, hminus, if_false, reduceCtorEq, hx, hrd, hsd, hdot, hu]
      simp [hm, hdp]

theorem ParseFloat_dollars_cents {total : String} {d : Char} {ds : List Char} {a b : Char}
    {k : Int} (htotal : total.toList = d :: ds ++ ['.', a, b])
    (hd : isDigit d = true) (hds : ∀ c ∈ ds, isDigit c = true)
    (ha : isDigit a = true) (hb : isDigit b = true)
    (hfin : Float64.ofDecimal false (digitsValue 0 (d :: ds ++ [a, b])) (-2) = Float64.fin k) :
    ParseFloat total = (Float64.fin k, none) := by
  obtain ⟨-, -, hplus, hminus, hi, hI, hn, hN⟩ := isDigit_ne hd
  have hsp : special (d :: ds ++ ['.', a, b]) = none := by
    simp [special, hplus, hminus, hi, hI, hn, hN]
  unfold ParseFloat
  simp only [htotal, hsp, readFloat_dollars_cents d ds a b hd hds ha hb]
  by_cases h0 : digitsValue 0 (d :: ds ++ [a, b]) = 0
  · rw [h0] at hfin ⊢
    have hk : Float64.fin k = Float64.fin 0 := by
      rw [← hfin]
      decide
    rw [hk]
    simp
    decide
  · simp only [List.cons_append] at h0 hfin
    simp [h0, hfin]

theorem digitsValue_cents (l : List Char) (a b : Char) :
    digitsValue 0 (l ++ [a, b])
      = 100 * digitsValue 0 l + (10 * (a.toNat - 0x30) + (b.toNat - 0x30)) := by
  unfold digitsValue
  rw [List.foldl_append]
  simp only [List.foldl_cons, List.foldl_nil]
  ring

theorem digit_lt_ten {c : Char} (h : isDigit c = true) : c.toNat - 0x30 < 10 := by
  unfold isDigit at h
  simp only [Bool.and_eq_true, decide_eq_true_eq] at h
  omega

theorem ofDecimal_whole_cents_fin (neg : Bool) {D c : Nat} (hD : D < 2 ^ 47) (hc : c < 100) :
    ∃ k : Int, Float64.ofDecimal neg (100 * D + c) (-2) = Float64.fin k := by
  have hx : Float64.ofDecimal neg (100 * D + c) (-2)
      = Float64.round neg ((100 * D + c) * unitsPerOne) 100 := rfl
  have hle : roundUnits ((100 * D + c) * unitsPerOne) 100 ≤ 2 ^ 1121 := by
    apply roundUnits_le_pow (by decide) (by decide)
    unfold unitsPerOne
    omega
  have hov : (2 : Nat) ^ 1121 < overflowUnits := by decide
  rw [hx, round_of_lt (Nat.lt_of_le_of_lt hle hov)]
  exact ⟨_, rfl⟩

/-! ## C1: the sign of the points -/

/-- C1, as the spec states it, fails: a receipt that decodes, with one returned
item priced `"-1000.00"`, gets negative points (4 for the retailer, 75 for the
total, and -200 for the item). -/
theorem points_negative_for_negative_price :
    computePoints ⟨fun _ => false, fun _ => false⟩
      ⟨"ACME", "2022-01-02", "13:01", [⟨"Return", "-1000.00"⟩], "-1000.00"⟩ = -121
    ∧ descriptionPoints ⟨"Return", "-1000.00"⟩ = -200 := by
  decide

/-- C1, amended: for every receipt that decodes in which every item price that
counts (the trimmed description has a length divisible by 3 and the price
parses) is a finite number with `0 ≤ price < 2^63`, and whose seven
contributions do not add up beyond the `int` range, the points computed by the
handler, and so the value written to `pointsMap`, are `≥ 0`: each rule then adds
a non-negative amount, and the points are their exact sum. -/
theorem points_nonneg (t : UnicodeTables) (recepit : process_recepits_request)
    (pointsMap : PointsMap) (id : String)
    (hprice : ∀ item ∈ recepit.Items,
      utf8Len (TrimSpace item.ShortDescription.toList) % 3 = 0 →
      ∀ price, ParseFloat item.Price = (price, none) →
        ∃ q : ℚ, price.toRat = some q ∧ 0 ≤ q ∧ q < 2 ^ 63)
    (hsum : exactPoints t recepit < 2 ^ 63) :
    0 ≤ computePoints t recepit
    ∧ computePoints t recepit = exactPoints t recepit
    ∧ (∀ item ∈ recepit.Items, 0 ≤ descriptionPoints item)
    ∧ (∃ points, (ProcessRecepitsHandler t pointsMap (.ok recepit) id).2 id = some points
        ∧ 0 ≤ points) := by
  have hitems : ∀ item ∈ recepit.Items, 0 ≤ descriptionPoints item :=
    fun item hi => descriptionPoints_nonneg (hprice item hi)
  have hdesc : 0 ≤ (recepit.Items.map descriptionPoints).sum := by
    apply List.sum_nonneg
    intro x hx
    obtain ⟨item, hi, rfl⟩ := List.mem_map.mp hx
    exact hitems item hi
  have h0 : 0 ≤ exactPoints t recepit := by
    unfold exactPoints
    have h1 := roundDollarPoints_nonneg recepit.Total
    have h2 := quarterDollarPoints_nonneg recepit.Total
    have h3 := datePoints_nonneg recepit.PurchaseDate
    have h4 := timePoints_nonneg recepit.PurchaseTime
    have h5 : (0 : Int) ≤ (alphanumCount t recepit.Retailer : Int) := Int.ofNat_nonneg _
    have h6 : (0 : Int) ≤ ((recepit.Items.length / 2 : Nat) : Int) := Int.ofNat_nonneg _
    omega
  have heq : computePoints t recepit = exactPoints t recepit := by
    rw [computePoints_eq]
    exact wrapInt64_of_range (by omega) hsum
  refine ⟨by rw [heq]; exact h0, heq, hitems, computePoints t recepit, ?_, by rw [heq]; exact h0⟩
  simp [ProcessRecepitsHandler]

/-- C1 at a receipt with two priced items, one of which earns a description bonus. -/
theorem points_nonneg_witness :
    0 ≤ computePoints ⟨fun _ => false, fun _ => false⟩
      ⟨"Target", "2022-01-01", "13:01",
        [⟨"Mountain Dew 12PK", "6.49"⟩, ⟨"Emils Cheese Pizza", "12.25"⟩], "18.74"⟩ :=
  (points_nonneg ⟨fun _ => false, fun _ => false⟩
    ⟨"Target", "2022-01-01", "13:01",
      [⟨"Mountain Dew 12PK", "6.49"⟩, ⟨"Emils Cheese Pizza", "12.25"⟩], "18.74"⟩
    (fun _ => none) "id"
    (by
      intro item hi hd price hp
      simp only [List.mem_cons, List.mem_singleton, List.not_mem_nil, or_false] at hi
      rcases hi with rfl | rfl
      · exact absurd hd (by decide)
      · have hprice : ParseFloat "12.25"
            = (Float64.fin ((49 * 2 ^ 1072 : Nat) : Int), none) := by decide
        have hx : price = Float64.fin ((49 * 2 ^ 1072 : Nat) : Int) := by
          have := hp.symm.trans hprice
          exact (Prod.mk.inj this).1
        subst hx
        refine ⟨_, rfl, by positivity, ?_⟩
        rw [units_lt_iff]
        decide)
    (by decide)).1

/-! ## C2: the quarter-dollar rule -/

/-- C2, as the spec states it, fails at three totals.  `"0.00"` parses as zero,
its cents are 0 and its fractional part is zero, yet the quarter-dollar rule
adds nothing and the two rules together give 50, not 75: line 77 requires
`totalSpend != 0`.  `"4.51"` parses as the `float64` nearest to 451/100, its
cents are 51, not a multiple of 25, yet the rule adds 25: the `float64` lies
below 4.51 and line 77 truncates `100 * 0.50999…` to 50.  The total
`"140737488355328.24"` (`2^47` dollars and 24 cents) parses as the nearest
`float64`, `2^47 + 0.25`, and the rule adds 25 although 24 is not a multiple of
25: from `2^47` on a `float64` does not hold the cents. -/
theorem quarter_dollar_fails_at_zero_and_off_quarters :
    (ParseFloat "0.00" = (Float64.fin 0, none) ∧ centsOf (ParseFloat "0.00").1 = 0
      ∧ quarterDollarPoints "0.00" = 0
      ∧ roundDollarPoints "0.00" + quarterDollarPoints "0.00" = 50)
    ∧ (ParseFloat "4.51" = (Float64.ofDecimal false (100 * 4 + 51) (-2), none)
      ∧ 51 % 25 ≠ 0 ∧ centsOf (ParseFloat "4.51").1 = 50
      ∧ quarterDollarPoints "4.51" = 25)
    ∧ (ParseFloat "140737488355328.24"
          = (Float64.ofDecimal false (100 * 2 ^ 47 + 24) (-2), none)
      ∧ 24 % 25 ≠ 0 ∧ centsOf (ParseFloat "140737488355328.24").1 = 25
      ∧ quarterDollarPoints "140737488355328.24" = 25) := by
  decide

/-- C2, amended (quarter-dollar rule), for every total text that parses as a
number `x`:

* a total of `D` dollars and `c` cents, with `D < 2^47` and `c` not 1, 26, 51
  or 76, adds 25 exactly when the total is not zero and `c` is divisible by 25,
  that is `c` is one of 0, 25, 50, 75.  Such a total is a text of decimal
  digits, a point and two decimal digits (first conjunct), or any text, of
  either sign, for which `x` is the `float64` nearest to `D + c/100` (second
  conjunct);
* every non-zero `x` in the `int64` range `-2^63 ≤ x < 2^63` whose cents are
  exactly 0, 25, 50 or 75 adds 25, and the cents the code computes for a
  positive such `x` are exactly 100 times its fractional part;
* the rule is evaluated independently of the round-dollar rule: every such
  non-zero `x` with zero fractional part earns both (50 + 25 = 75, e.g.
  `"100.00"`), a total that parses to zero earns the 50 only, and `"35.35"`
  earns 0 from both;
* the rule adds 25 or nothing. -/
theorem quarter_dollar_rule (total : String) (x : Float64)
    (hp : ParseFloat total = (x, none)) :
    (∀ (d : Char) (ds : List Char) (a b : Char), total.toList = d :: ds ++ ['.', a, b] →
        isDigit d = true → (∀ ch ∈ ds, isDigit ch = true) →
        isDigit a = true → isDigit b = true →
        digitsValue 0 (d :: ds) < 2 ^ 47 → digitsValue 0 [a, b] % 25 ≠ 1 →
          (quarterDollarPoints total = 25 ↔
            (digitsValue 0 (d :: ds) ≠ 0 ∨ digitsValue 0 [a, b] ≠ 0)
              ∧ digitsValue 0 [a, b] % 25 = 0))
    ∧ (∀ (neg : Bool) (D c : Nat), x = Float64.ofDecimal neg (100 * D + c) (-2) →
        D < 2 ^ 47 → c < 100 → c % 25 ≠ 1 →
          (quarterDollarPoints total = 25 ↔ (D ≠ 0 ∨ c ≠ 0) ∧ c % 25 = 0))
    ∧ (∀ q : ℚ, x.toRat = some q → q ≠ 0 → -(2 : ℚ) ^ 63 ≤ q → q < 2 ^ 63 →
        (100 * Int.fract q = 0 ∨ 100 * Int.fract q = 25
          ∨ 100 * Int.fract q = 50 ∨ 100 * Int.fract q = 75) →
          quarterDollarPoints total = 25
          ∧ (0 < q → ((centsOf x : Int) : ℚ) = 100 * Int.fract q)
          ∧ (Int.fract q = 0 → roundDollarPoints total = 50))
    ∧ (x.toRat = some 0 → roundDollarPoints total = 50 ∧ quarterDollarPoints total = 0)
    ∧ (quarterDollarPoints total ≠ 25 → quarterDollarPoints total = 0)
    ∧ (roundDollarPoints "100.00" = 50 ∧ quarterDollarPoints "100.00" = 25)
    ∧ (roundDollarPoints "35.35" = 0 ∧ quarterDollarPoints "35.35" = 0)
    ∧ (roundDollarPoints "0.25" = 0 ∧ quarterDollarPoints "0.25" = 25)
    ∧ quarterDollarPoints "1.25" = 25 ∧ quarterDollarPoints "2.50" = 25
    ∧ quarterDollarPoints "3.75" = 25 ∧ quarterDollarPoints "-3.75" = 25
    ∧ quarterDollarPoints "0.24" = 0 ∧ quarterDollarPoints "0.74" = 0
    ∧ quarterDollarPoints "2.05" = 0 := by
  have hcents : ∀ (neg : Bool) (D c : Nat), x = Float64.ofDecimal neg (100 * D + c) (-2) →
      D < 2 ^ 47 → c < 100 → c % 25 ≠ 1 →
        (quarterDollarPoints total = 25 ↔ (D ≠ 0 ∨ c ≠ 0) ∧ c % 25 = 0) := by
    intro neg D c hx hD hc hc1
    rw [hx] at hp
    by_cases h25 : c % 25 = 0
    · obtain ⟨j, rfl⟩ : ∃ j, c = 25 * j := ⟨c / 25, by omega⟩
      have hj : j < 4 := by omega
      rw [ofDecimal_quarter neg hD hj] at hp
      have hrep := ParseFloat_representable hp
      have hM : (4 * D + j) * 2 ^ 1072 < 2 ^ 63 * 2 ^ 1074 := by omega
      have hcents := (cents_of_quarter_total hrep
        (by unfold unitsPerOne; cases neg <;> simp only [Bool.false_eq_true, if_false, if_true]
              <;> omega)
        (by unfold unitsPerOne; cases neg <;> simp only [Bool.false_eq_true, if_false, if_true]
              <;> omega)
        (by cases neg
            · exact ⟨((4 * D + j : Nat) : Int), by
                simp only [Bool.false_eq_true, if_false]
                push_cast
                ring⟩
            · exact ⟨-((4 * D + j : Nat) : Int), by
                simp only [if_true]
                push_cast
                ring⟩)).1
      rw [quarterDollarPoints_fin hp]
      constructor
      · intro h
        refine ⟨?_, h25⟩
        by_contra hn
        have hD0 : D = 0 := by omega
        have hj0 : j = 0 := by omega
        subst hD0
        subst hj0
        rw [if_neg (fun hh => hh.1 (by cases neg <;> simp))] at h
        exact absurd h (by decide)
      · rintro ⟨hne, -⟩
        have hK : (if neg = true then -(((4 * D + j) * 2 ^ 1072 : Nat) : Int)
            else (((4 * D + j) * 2 ^ 1072 : Nat) : Int)) ≠ 0 := by
          cases neg <;> simp only [Bool.false_eq_true, if_false, if_true] <;> omega
        rw [if_pos ⟨hK, hcents⟩]
    · obtain ⟨k, hk, hk0, t, ht, hcents⟩ := cents_of_whole_cents neg hD (by omega) hc
      rw [hk] at hp
      rw [quarterDollarPoints_fin hp]
      have hnot : ¬ Int.tmod (centsOf (Float64.fin k)) 25 = 0 := by
        intro h
        have hd := Int.dvd_iff_tmod_eq_zero.mpr h
        rcases hcents with hc2 | hc2 <;> rw [hc2] at hd <;> omega
      rw [if_neg (fun h => hnot h.2)]
      constructor
      · intro h
        exact absurd h (by decide)
      · rintro ⟨-, h⟩
        exact absurd h h25
  refine ⟨?_, hcents, ?_, ?_, ?_, by decide, by decide, by decide, by decide, by decide,
    by decide, by decide, by decide, by decide, by decide⟩
  · intro d ds a b htotal hd hds ha hb hD hc1
    have hform : digitsValue 0 [a, b] = 10 * (a.toNat - 0x30) + (b.toNat - 0x30) := by
      unfold digitsValue
      simp only [List.foldl_cons, List.foldl_nil]
      omega
    have hc : digitsValue 0 [a, b] < 100 := by
      have h1 := digit_lt_ten ha
      have h2 := digit_lt_ten hb
      omega
    obtain ⟨k, hk⟩ := ofDecimal_whole_cents_fin false hD hc
    have hparse := ParseFloat_dollars_cents htotal hd hds ha hb
      (by rw [digitsValue_cents, ← hform]; exact hk)
    rw [hp] at hparse
    exact hcents false _ _ (by rw [hk]; exact congrArg Prod.fst hparse) hD hc hc1
  · intro q hq hq0 hlo hhi hquarters
    obtain ⟨k, hx, hqk⟩ := toRat_eq_some hq
    subst hx
    subst hqk
    have hrep : Float64.Representable k.natAbs := ParseFloat_representable hp
    have hpos : (0 : ℚ) < 2 ^ 1074 := by positivity
    have hk0 : k ≠ 0 := fun h => hq0 ((units_eq_zero_iff k).mpr h)
    have hk2 := (units_lt_iff k).mp hhi
    have hk1 : -(2 ^ 63) * (unitsPerOne : Int) ≤ k := by
      rw [le_div_iff₀ hpos, ← unitsPerOne_cast] at hlo
      exact_mod_cast hlo
    obtain ⟨hmod, hval⟩ := cents_of_quarter_total hrep hk1 hk2 (quarter_dvd hquarters)
    refine ⟨?_, ?_, ?_⟩
    · rw [quarterDollarPoints_fin hp, if_pos ⟨hk0, hmod⟩]
    · intro h0
      have hkpos : 0 < k := (units_pos_iff k).mp h0
      have hv := hval (Int.le_of_lt hkpos)
      have hcast : ((unitsPerOne : Nat) : ℚ) = 2 ^ 1074 := by
        simp only [unitsPerOne, Nat.cast_pow, Nat.cast_ofNat]
      have hfr : Int.fract ((k : ℚ) / 2 ^ 1074)
          = ((k % (unitsPerOne : Int) : Int) : ℚ) / 2 ^ 1074 := by
        rw [← hcast]
        exact Int.fract_div_intCast_eq_div_intCast_mod (k := ℚ) (m := k) (n := unitsPerOne)
      rw [hfr, mul_div_assoc', eq_div_iff (ne_of_gt hpos), ← unitsPerOne_cast]
      exact_mod_cast hv
    · intro hf
      have hz := (fractionOf_isZero_iff hrep).mpr ((whole_in_range_iff k).mp ⟨hf, hlo, hhi⟩)
      unfold roundDollarPoints
      rw [hp]
      simp [hz]
  · intro hq
    obtain ⟨k, hx, hqk⟩ := toRat_eq_some hq
    subst hx
    have hk : k = 0 := (units_eq_zero_iff k).mp hqk.symm
    subst hk
    constructor
    · unfold roundDollarPoints
      rw [hp]
      decide
    · rw [quarterDollarPoints_fin hp]
      simp
  · intro h
    unfold quarterDollarPoints at h ⊢
    rw [hp] at h ⊢
    simp only at h ⊢
    by_cases c : (!x.isZero) = true ∧ Int.tmod (centsOf x) 25 = 0
    · rw [if_pos c] at h
      exact absurd rfl h
    · rw [if_neg c]

/-- C2 at the totals `"3.75"` (three dollars and three quarters, 25 points)
and `"35.35"` (35 cents, no points). -/
theorem quarter_dollar_rule_witness :
    quarterDollarPoints "3.75" = 25 ∧ quarterDollarPoints "35.35" ≠ 25 :=
  ⟨((quarter_dollar_rule "3.75" (Float64.fin ((15 * 2 ^ 1072 : Nat) : Int)) (by decide)).2.2.1
      (15 / 4)
      (by
        show some _ = some _
        congr 1
        rw [div_eq_div_iff (by positivity) (by norm_num)]
        push_cast
        ring)
      (by norm_num) (by norm_num) (by norm_num)
      (Or.inr (Or.inr (Or.inr (by
        have h : Int.fract ((15 : ℚ) / 4) = 3 / 4 := by
          rw [Int.fract_eq_iff]
          exact ⟨by norm_num, by norm_num, 3, by norm_num⟩
        rw [h]
        norm_num))))).1,
   fun h => absurd
    (((quarter_dollar_rule "35.35" (Float64.ofDecimal false (100 * 35 + 35) (-2))
      (by decide)).1 '3' ['5'] '3' '5' rfl (by decide) (by decide) (by decide) (by decide)
        (by decide) (by decide)).mp h).2
    (by decide)⟩

/-! ## C3: the description rule -/

/-- C4 (retailer rule): the retailer contribution is the number of characters of
the name that `unicode.IsLetter` or `unicode.IsNumber` accepts (a Go string has
fewer than `2^63` characters); no other character counts.  So a receipt with no
items whose total, date and time do not parse gets exactly that count. -/
theorem retailer_rule (t : UnicodeTables) (recepit : process_recepits_request)
    (h : recepit.Retailer.length < 2 ^ 63) :
    retailer_alphanum_count t recepit.Retailer
      = (recepit.Retailer.toList.countP fun c => IsLetter t c || IsNumber t c : Nat)
    ∧ (recepit.Items = [] → (ParseFloat recepit.Total).2 ≠ none →
        parseDate recepit.PurchaseDate = none → parseClock recepit.PurchaseTime = none →
        computePoints t recepit
          = (recepit.Retailer.toList.countP fun c => IsLetter t c || IsNumber t c : Nat)) := by
  have hle := alphanumCount_le t recepit.Retailer
  have hw : wrapInt64 (alphanumCount t recepit.Retailer) = alphanumCount t recepit.Retailer := by
    apply wrapInt64_of_range <;> omega
  refine ⟨?_, ?_⟩
  · rw [retailer_alphanum_count_eq, hw]
    rfl
  · intro hi ht hd hc
    rw [computePoints_eq]
    unfold exactPoints
    rw [roundDollarPoints_error ht, quarterDollarPoints_error ht, datePoints_error hd,
      timePoints_error hc, hi]
    simp only [List.length_nil, Nat.zero_div, Nat.cast_zero, mul_zero, add_zero, List.map_nil,
      List.sum_nil]
    rw [hw]
    rfl

/-- C4 at the retailer `"M&M Corner Market"` of a receipt with nothing else to
score: 14 points, the `&` and the blanks counting for nothing. -/
theorem retailer_rule_witness :
    computePoints ⟨fun _ => false, fun _ => false⟩
      ⟨"M&M Corner Market", "", "", [], "n/a"⟩ = (14 : Nat) :=
  (retailer_rule ⟨fun _ => false, fun _ => false⟩ ⟨"M&M Corner Market", "", "", [], "n/a"⟩
    (by decide)).2 rfl (by decide) (by decide) (by decide)

/-- C5, as the spec states it, fails: no choice of the Unicode tables makes the
retailer `"Target & Co."` worth 9 points. -/
theorem target_and_co_not_nine :
    ¬ ∃ t : UnicodeTables, retailer_alphanum_count t "Target & Co." = 9 := by
  rintro ⟨t, h⟩
  have h8 : retailer_alphanum_count t "Target & Co." = 8 := rfl
  rw [h8] at h
  exact absurd h (by decide)

/-- C5, amended: for the retailer name `"Target & Co."` the retailer rule
contributes exactly 8 points, one for each of the letters `T a r g e t C o`;
the two blanks, the `&` and the `.` contribute nothing. -/
theorem target_and_co_points (t : UnicodeTables) :
    retailer_alphanum_count t "Target & Co." = 8
    ∧ ("Target & Co.".toList.filter fun c => IsLetter t c || IsNumber t c)
        = ['T', 'a', 'r', 'g', 'e', 't', 'C', 'o'] :=
  ⟨rfl, rfl⟩

/-! ## C6: the round-dollar rule -/

/-- C6, as the spec states it, fails: the total `"10000000000000000000"` parses
as a number (ten to the nineteenth) with zero fractional part, and the handler
adds nothing for it; whatever `int64` the conversion of line 71 yields, the
difference it is subtracted in is not zero. -/
theorem round_dollar_fails_beyond_int64 :
    (ParseFloat "10000000000000000000").2 = none
    ∧ (∃ q : ℚ, (ParseFloat "10000000000000000000").1.toRat = some q ∧ Int.fract q = 0)
    ∧ roundDollarPoints "10000000000000000000" = 0
    ∧ (∀ v : Int, -(2 ^ 63) ≤ v → v < 2 ^ 63 →
        ((ParseFloat "10000000000000000000").1.sub (Float64.ofInt v)).isZero = false) := by
  have hp : ParseFloat "10000000000000000000"
      = (Float64.fin ((10 ^ 19 * unitsPerOne : Nat) : Int), none) := by decide
  refine ⟨by rw [hp], ⟨(10 ^ 19 : ℤ), ?_, Int.fract_intCast _⟩, by decide, ?_⟩
  · rw [hp]
    show some _ = some _
    congr 1
    rw [div_eq_iff (by positivity)]
    unfold unitsPerOne
    push_cast
    ring
  · intro v h₁ h₂
    obtain ⟨w, hw, hle⟩ := ofInt_le h₁ h₂
    rw [hp, hw]
    show (Float64.ofUnits (((10 ^ 19 * unitsPerOne : Nat) : Int) - w)).isZero = false
    rw [Bool.eq_false_iff, Ne, ofUnits_isZero]
    have hU := unitsPerOne_pos_int
    push_cast
    omega

/-- C6, amended (round-dollar rule): for every total text the handler adds 50
exactly when the total parses as a number `n` that has zero fractional part and
lies in the `int64` range `-2^63 ≤ n < 2^63`, through which the code takes the
whole part; `-2^63` itself (`"-9223372036854775808"`) adds 50.  Every other
total adds nothing from this rule: one with a non-zero fractional part, one
below `-2^63` or at least `2^63`, `NaN`, `±Inf`, or no number at all.  For a
total below `-2^63` or above `2^63`, for `NaN` and for `±Inf` this holds
whatever `int64` the out-of-range conversion of line 71 yields (third
conjunct); at exactly `2^63` it is the amd64 result of that conversion, `-2^63`,
that makes the rule add nothing. -/
theorem round_dollar_rule (total : String) :
    (roundDollarPoints total = 50 ↔
      (ParseFloat total).2 = none ∧
        ∃ q : ℚ, (ParseFloat total).1.toRat = some q ∧ Int.fract q = 0
          ∧ -(2 : ℚ) ^ 63 ≤ q ∧ q < 2 ^ 63)
    ∧ (roundDollarPoints total ≠ 50 → roundDollarPoints total = 0)
    ∧ (∀ v : Int, -(2 ^ 63) ≤ v → v < 2 ^ 63 →
        ((ParseFloat total).1.toRat = none
          ∨ ∃ q : ℚ, (ParseFloat total).1.toRat = some q
              ∧ (q < -(2 : ℚ) ^ 63 ∨ 2 ^ 63 < q)) →
        ((ParseFloat total).1.sub (Float64.ofInt v)).isZero = false)
    ∧ roundDollarPoints "100.00" = 50 ∧ roundDollarPoints "9" = 50
    ∧ roundDollarPoints "-9223372036854775808" = 50
    ∧ roundDollarPoints "9223372036854775807" = 0
    ∧ roundDollarPoints "9223372036854775808" = 0
    ∧ roundDollarPoints "-9223372036854777856" = 0
    ∧ roundDollarPoints "35.35" = 0 ∧ roundDollarPoints "NaN" = 0
    ∧ roundDollarPoints "Inf" = 0 ∧ roundDollarPoints "ten" = 0 := by
  have key : roundDollarPoints total
      = if (ParseFloat total).2 = none ∧ (fractionOf (ParseFloat total).1).isZero = true
        then 50 else 0 := by
    unfold roundDollarPoints
    rfl
  refine ⟨?_, ?_, ?_, by decide, by decide, by decide, by decide, by decide, by decide,
    by decide, by decide, by decide, by decide⟩
  · rw [key]
    constructor
    · intro h
      by_cases c : (ParseFloat total).2 = none ∧ (fractionOf (ParseFloat total).1).isZero = true
      · obtain ⟨c1, c2⟩ := c
        refine ⟨c1, ?_⟩
        cases hx : (ParseFloat total).1 with
        | nan => rw [hx] at c2; exact absurd c2 (by decide)
        | inf neg => rw [hx] at c2; cases neg <;> exact absurd c2 (by decide)
        | fin k =>
          rw [hx] at c2
          have hrep : Float64.Representable k.natAbs :=
            ParseFloat_representable (e := (ParseFloat total).2) (by rw [← hx])
          have := (whole_in_range_iff k).mpr ((fractionOf_isZero_iff hrep).mp c2)
          exact ⟨_, rfl, this⟩
      · rw [if_neg c] at h
        exact absurd h (by decide)
    · rintro ⟨c1, q, hq, hw⟩
      cases hx : (ParseFloat total).1 with
      | nan => rw [hx] at hq; exact absurd hq (by simp [Float64.toRat])
      | inf neg => rw [hx] at hq; exact absurd hq (by simp [Float64.toRat])
      | fin k =>
        rw [hx] at hq
        simp only [Float64.toRat, Option.some.injEq] at hq
        subst hq
        have hrep : Float64.Representable k.natAbs :=
          ParseFloat_representable (e := (ParseFloat total).2) (by rw [← hx])
        rw [if_pos ⟨c1, (fractionOf_isZero_iff hrep).mpr ((whole_in_range_iff k).mp hw)⟩]
  · rw [key]
    intro h
    by_cases c : (ParseFloat total).2 = none ∧ (fractionOf (ParseFloat total).1).isZero = true
    · rw [if_pos c] at h
      exact absurd rfl h
    · rw [if_neg c]
  · intro v h₁ h₂ hout
    obtain ⟨w, hw, hge, hle⟩ := ofInt_bounds h₁ h₂
    rw [hw]
    cases hx : (ParseFloat total).1 with
    | nan => rfl
    | inf neg => rfl
    | fin k =>
      rw [hx] at hout
      show (Float64.ofUnits (k - w)).isZero = false
      rw [Bool.eq_false_iff, Ne, ofUnits_isZero]
      rcases hout with hnone | ⟨q, hq, hlt | hgt⟩
      · exact absurd hnone (by simp [Float64.toRat])
      · simp only [Float64.toRat, Option.some.injEq] at hq
        subst hq
        have hk : k < -(2 ^ 63 * (unitsPerOne : Int)) := by
          have hpos : (0 : ℚ) < 2 ^ 1074 := by positivity
          rw [div_lt_iff₀ hpos, ← unitsPerOne_cast] at hlt
          have : (k : ℚ) < ((-(2 ^ 63 * (unitsPerOne : Int)) : Int) : ℚ) := by
            push_cast at hlt ⊢
            linarith
          exact_mod_cast this
        omega
      · simp only [Float64.toRat, Option.some.injEq] at hq
        subst hq
        have hk : 2 ^ 63 * (unitsPerOne : Int) < k := by
          have hpos : (0 : ℚ) < 2 ^ 1074 := by positivity
          rw [lt_div_iff₀ hpos, ← unitsPerOne_cast] at hgt
          exact_mod_cast hgt
        omega

/-! ## C7: the afternoon rule -/

/-- C7 (time rule): for every purchaseTime text that `time.Parse("15:04", ·)`
accepts, the handler adds 10 exactly when the time is strictly after 14:00 and
strictly before 16:00, that is from 14:01 to 15:59 inclusive, and adds 0
otherwise; `"14:33"` adds 10 and `"14:00"`, `"16:00"`, `"13:59"` add 0. -/
theorem time_rule (purchaseTime : String) (t : Time) (h : parseClock purchaseTime = some t) :
    (timePoints purchaseTime = 10 ↔
        14 * 60 < t.hour * 60 + t.min ∧ t.hour * 60 + t.min < 16 * 60)
    ∧ (timePoints purchaseTime = 10 ↔
        14 * 60 + 1 ≤ t.hour * 60 + t.min ∧ t.hour * 60 + t.min ≤ 15 * 60 + 59)
    ∧ (timePoints purchaseTime ≠ 10 → timePoints purchaseTime = 0)
    ∧ timePoints "14:33" = 10 ∧ timePoints "14:00" = 0
    ∧ timePoints "16:00" = 0 ∧ timePoints "13:59" = 0 := by
  obtain ⟨hy, hmo, hd, -, -⟩ := parseClock_some h
  have h2 : parseClock "14:00" = some ⟨0, 1, 1, 14, 0⟩ := by decide
  have h4 : parseClock "16:00" = some ⟨0, 1, 1, 16, 0⟩ := by decide
  have key : timePoints purchaseTime
      = if 14 * 60 < t.hour * 60 + t.min ∧ t.hour * 60 + t.min < 16 * 60 then 10 else 0 := by
    unfold timePoints
    rw [h, h2, h4]
    simp only [Option.getD_some, Time.After, Time.Before, Time.minuteOfDay, hy, hmo, hd]
    by_cases c : 14 * 60 < t.hour * 60 + t.min ∧ t.hour * 60 + t.min < 16 * 60
    · rw [if_pos c]
      obtain ⟨c1, c2⟩ := c
      simp [c1, c2]
    · rw [if_neg c]
      have : ¬ (14 * 60 + 0 < t.hour * 60 + t.min ∧ t.hour * 60 + t.min < 16 * 60 + 0) := by
        simpa using c
      simp
      intro c1
      omega
  refine ⟨?_, ?_, ?_, by decide, by decide, by decide, by decide⟩
  · rw [key]
    constructor
    · intro h10
      by_contra c
      rw [if_neg c] at h10
      exact absurd h10 (by decide)
    · intro c
      rw [if_pos c]
  · rw [key]
    constructor
    · intro h10
      by_contra c
      rw [if_neg (by omega)] at h10
      exact absurd h10 (by decide)
    · intro c
      rw [if_pos (by omega)]
  · rw [key]
    intro hne
    by_cases c : 14 * 60 < t.hour * 60 + t.min ∧ t.hour * 60 + t.min < 16 * 60
    · rw [if_pos c] at hne
      exact absurd rfl hne
    · rw [if_neg c]

/-- C7 at `"15:59"`, the last minute of the window. -/
theorem time_rule_witness : timePoints "15:59" = 10 :=
  (time_rule "15:59" ⟨0, 1, 1, 15, 59⟩ (by decide)).1.mpr (by decide)

/-! ## C8: the odd-day rule -/

/-- C8 (date rule): for every purchaseDate text that `time.Parse("2006-01-02", ·)`
accepts, the handler adds 6 exactly when the day of the month is odd and adds
nothing when it is even; `"2022-01-01"` adds 6 and `"2022-01-02"` adds 0. -/
theorem date_rule (purchaseDate : String) (d : Time) (h : parseDate purchaseDate = some d) :
    (datePoints purchaseDate = 6 ↔ d.day % 2 = 1)
    ∧ (d.day % 2 = 0 → datePoints purchaseDate = 0)
    ∧ (1 ≤ d.day ∧ d.day ≤ daysIn d.month d.year)
    ∧ datePoints "2022-01-01" = 6 ∧ datePoints "2022-01-02" = 0 := by
  have key : datePoints purchaseDate = if d.day % 2 = 1 then 6 else 0 := by
    unfold datePoints
    rw [h]
    rfl
  refine ⟨?_, ?_, (parseDate_some h).2.2, by decide, by decide⟩
  · rw [key]
    constructor
    · intro h6
      by_contra c
      rw [if_neg c] at h6
      exact absurd h6 (by decide)
    · intro c
      rw [if_pos c]
  · intro he
    rw [key, if_neg (by omega)]

/-- C8 at the last day of a leap February. -/
theorem date_rule_witness : datePoints "2024-02-29" = 6 :=
  (date_rule "2024-02-29" ⟨2024, 2, 29, 0, 0⟩ (by decide)).1.mpr (by decide)

/-! ## C9: the item-pair rule -/

/-- C9 (item-pair rule): for a receipt with `n` items (a Go slice of these
32-byte items has fewer than `2^61` of them) the item-pair contribution is
exactly `5 * floor(n / 2)`, whatever the items contain: 1 item adds 0, 2 items
add 5, 3 items add 5 and 4 items add 10. -/
theorem item_pair_rule (items : List recepit_items) (h : items.length < 2 ^ 61) :
    itemPairPoints items = 5 * ((items.length / 2 : Nat) : Int)
    ∧ (∀ others : List recepit_items, others.length = items.length →
        itemPairPoints others = itemPairPoints items)
    ∧ (items.length = 1 → itemPairPoints items = 0)
    ∧ (items.length = 2 → itemPairPoints items = 5)
    ∧ (items.length = 3 → itemPairPoints items = 5)
    ∧ (items.length = 4 → itemPairPoints items = 10) := by
  have key : itemPairPoints items = 5 * ((items.length / 2 : Nat) : Int) := by
    rw [itemPairPoints_eq]
    apply wrapInt64_of_range <;> omega
  refine ⟨key, ?_, ?_, ?_, ?_, ?_⟩
  · intro others ho
    rw [itemPairPoints_eq, itemPairPoints_eq, ho]
  all_goals
    intro hl
    rw [key, hl]
    rfl

/-- C9 at three items: one pair, 5 points. -/
theorem item_pair_rule_witness :
    itemPairPoints [⟨"Gatorade", "2.25"⟩, ⟨"Gatorade", "2.25"⟩, ⟨"Pepsi", "x"⟩] = 5 :=
  (item_pair_rule [⟨"Gatorade", "2.25"⟩, ⟨"Gatorade", "2.25"⟩, ⟨"Pepsi", "x"⟩]
    (by decide)).2.2.2.2.1 rfl

/-! ## C10: graceful degradation -/

/-- C10 (graceful degradation): for every receipt that decodes and in which the
total, the purchaseDate, the purchaseTime and every item price fail to parse
(and whose sizes fit an `int`), the handler still answers 200 with the points
`(letters and numbers of the retailer) + 5 * floor(itemCount / 2)`: the
round-dollar, quarter-dollar, description, date and time rules each contribute
zero. -/
theorem graceful_degradation (t : UnicodeTables) (recepit : process_recepits_request)
    (pointsMap : PointsMap) (id : String)
    (hsize : (recepit.Retailer.length : Int) + 5 * ((recepit.Items.length / 2 : Nat) : Int)
      < 2 ^ 63)
    (htotal : (ParseFloat recepit.Total).2 ≠ none)
    (hdate : parseDate recepit.PurchaseDate = none)
    (htime : parseClock recepit.PurchaseTime = none)
    (hprice : ∀ item ∈ recepit.Items, (ParseFloat item.Price).2 ≠ none) :
    (ProcessRecepitsHandler t pointsMap (.ok recepit) id).1
      = .processed 200 ⟨id, (recepit.Retailer.toList.countP
          (fun c => IsLetter t c || IsNumber t c) : Nat)
          + 5 * ((recepit.Items.length / 2 : Nat) : Int)⟩
    ∧ roundDollarPoints recepit.Total = 0 ∧ quarterDollarPoints recepit.Total = 0
    ∧ (∀ item ∈ recepit.Items, descriptionPoints item = 0)
    ∧ datePoints recepit.PurchaseDate = 0 ∧ timePoints recepit.PurchaseTime = 0 := by
  have hitems : ∀ item ∈ recepit.Items, descriptionPoints item = 0 :=
    fun item hi => descriptionPoints_error (hprice item hi)
  refine ⟨?_, roundDollarPoints_error htotal, quarterDollarPoints_error htotal, hitems,
    datePoints_error hdate, timePoints_error htime⟩
  have hle := alphanumCount_le t recepit.Retailer
  have hpts : computePoints t recepit
      = (alphanumCount t recepit.Retailer : Int)
        + 5 * ((recepit.Items.length / 2 : Nat) : Int) := by
    rw [computePoints_eq]
    unfold exactPoints
    rw [roundDollarPoints_error htotal, quarterDollarPoints_error htotal,
      datePoints_error hdate, timePoints_error htime,
      sum_map_eq_zero descriptionPoints recepit.Items hitems]
    simp only [add_zero]
    apply wrapInt64_of_range <;> omega
  simp only [ProcessRecepitsHandler, hpts]
  rfl

/-- C10 at a receipt whose every scored field is garbage: 4 letters and one
pair of items, 9 points, with status 200. -/
theorem graceful_degradation_witness :
    (ProcessRecepitsHandler ⟨fun _ => false, fun _ => false⟩ (fun _ => none)
      (.ok ⟨"ACME", "yesterday", "noon", [⟨"abc", "free"⟩, ⟨"def", ""⟩, ⟨"ghi", "1,50"⟩],
        "twelve"⟩) "id-1").1
      = .processed 200 ⟨"id-1", 9⟩ :=
  (graceful_degradation ⟨fun _ => false, fun _ => false⟩
    ⟨"ACME", "yesterday", "noon", [⟨"abc", "free"⟩, ⟨"def", ""⟩, ⟨"ghi", "1,50"⟩], "twelve"⟩
    (fun _ => none) "id-1" (by decide) (by decide) (by decide) (by decide) (by decide)).1

/-! ## C11: submit, then fetch -/

/-- C11 (submit-then-fetch round trip): for every store state and every receipt
that decodes, if `ProcessRecepitsHandler` responds with identifier `id` and
points `p`, then `GetPointsHandler` called with `id` on the resulting store
returns points `p`; `p` is the value computed at submission and `id` the
identifier generated for the call. -/
theorem submit_then_fetch (t : UnicodeTables) (pointsMap : PointsMap)
    (recepit : process_recepits_request) (uuid : String) (status : Nat) (id : String) (p : Int)
    (h : (ProcessRecepitsHandler t pointsMap (.ok recepit) uuid).1
      = .processed status ⟨id, p⟩) :
    (GetPointsHandler (ProcessRecepitsHandler t pointsMap (.ok recepit) uuid).2 id).1
      = .points 200 ⟨p⟩
    ∧ p = computePoints t recepit ∧ id = uuid ∧ status = 200 := by
  rw [ProcessRecepitsHandler_ok] at h ⊢
  simp only [Response.processed.injEq, process_recepits_reponse.mk.injEq] at h
  obtain ⟨hs, hid, hp⟩ := h
  subst hs hid hp
  refine ⟨?_, rfl, rfl, rfl⟩
  simp [GetPointsHandler]

/-- C11 at a receipt worth 109 points, submitted to an empty store under the
identifier `"7fb1377b"`. -/
theorem submit_then_fetch_witness :
    (GetPointsHandler
      (ProcessRecepitsHandler ⟨fun _ => false, fun _ => false⟩ (fun _ => none)
        (.ok ⟨"M&M Corner Market", "2022-03-20", "14:33",
          [⟨"Gatorade", "2.25"⟩, ⟨"Gatorade", "2.25"⟩, ⟨"Gatorade", "2.25"⟩,
            ⟨"Gatorade", "2.25"⟩], "9.00"⟩) "7fb1377b").2 "7fb1377b").1
      = .points 200 ⟨109⟩ :=
  (submit_then_fetch ⟨fun _ => false, fun _ => false⟩ (fun _ => none)
    ⟨"M&M Corner Market", "2022-03-20", "14:33",
      [⟨"Gatorade", "2.25"⟩, ⟨"Gatorade", "2.25"⟩, ⟨"Gatorade", "2.25"⟩,
        ⟨"Gatorade", "2.25"⟩], "9.00"⟩ "7fb1377b" 200 "7fb1377b" 109 (by decide)).1

/-! ## C12: a body that does not decode -/

/-- C12 (malformed envelope): when the request body cannot be decoded into the
receipt structure, `ProcessRecepitsHandler` responds with status 400 and the
text `"Invalid JSON"` followed by the decoder's error, its response is not the
one that carries an identifier and does not depend on what `uuid.New()` would
have yielded, and `pointsMap` is exactly what it was before the call. -/
theorem malformed_envelope (t : UnicodeTables) (pointsMap : PointsMap) (err : String)
    (id : String) :
    (ProcessRecepitsHandler t pointsMap (.error err) id).1 = .error 400 ("Invalid JSON" ++ err)
    ∧ (ProcessRecepitsHandler t pointsMap (.error err) id).1.status = 400
    ∧ (∀ status body,
        (ProcessRecepitsHandler t pointsMap (.error err) id).1 ≠ .processed status body)
    ∧ (∀ other : String, ProcessRecepitsHandler t pointsMap (.error err) other
        = ProcessRecepitsHandler t pointsMap (.error err) id)
    ∧ (ProcessRecepitsHandler t pointsMap (.error err) id).2 = pointsMap := by
  refine ⟨rfl, rfl, ?_, fun _ => rfl, rfl⟩
  intro status body h
  simp [ProcessRecepitsHandler] at h

/-! ## C13: fetching an identifier -/

/-- C13 (fetch of an unknown identifier): for every store state,
`GetPointsHandler` answers with status 200; for an identifier that has no
record in the store the points are 0, and for an identifier that has a record
they are the stored value. -/
theorem fetch_unknown_is_zero (pointsMap : PointsMap) (id : String) :
    (GetPointsHandler pointsMap id).1.status = 200
    ∧ (pointsMap id = none → (GetPointsHandler pointsMap id).1 = .points 200 ⟨0⟩)
    ∧ (∀ v, pointsMap id = some v → (GetPointsHandler pointsMap id).1 = .points 200 ⟨v⟩) := by
  refine ⟨rfl, ?_, ?_⟩
  · intro h
    simp [GetPointsHandler, h]
  · intro v h
    simp [GetPointsHandler, h]

/-! ## C14: fetching changes nothing -/

/-- C14 (fetch is read-only and idempotent): `GetPointsHandler` leaves the store
as it was, adding no record (also for an unknown identifier) and altering none;
so after any sequence of fetches, and after any number of fetches of the same
identifier, with no submit in between, a fetch returns the same points. -/
theorem fetch_read_only (pointsMap : PointsMap) (id : String) :
    (GetPointsHandler pointsMap id).2 = pointsMap
    ∧ (pointsMap id = none → (GetPointsHandler pointsMap id).2 id = none)
    ∧ (∀ ids : List String,
        ids.foldl (fun m k => (GetPointsHandler m k).2) pointsMap = pointsMap)
    ∧ (∀ ids : List String,
        (GetPointsHandler (ids.foldl (fun m k => (GetPointsHandler m k).2) pointsMap) id).1
          = (GetPointsHandler pointsMap id).1)
    ∧ (∀ n : Nat,
        (GetPointsHandler ((fun m => (GetPointsHandler m id).2)^[n] pointsMap) id).1
          = (GetPointsHandler pointsMap id).1) := by
  refine ⟨rfl, fun h => h, fun ids => fetches_keep_store ids pointsMap, ?_, ?_⟩
  · intro ids
    rw [fetches_keep_store]
  · intro n
    rw [fetch_iterate_store]

/-! ## C15: submitting adds one record -/

/-- C15 (submit is append-only): for every store state and every successful
`ProcessRecepitsHandler` call whose generated identifier is not yet in the
store, the resulting store holds every previous record with its points
unchanged, holds one new record, for the generated identifier, with the points
of the receipt, and holds nothing else. -/
theorem submit_append_only (t : UnicodeTables) (pointsMap : PointsMap)
    (recepit : process_recepits_request) (id : String) (hfresh : pointsMap id = none) :
    (∀ k v, pointsMap k = some v →
        (ProcessRecepitsHandler t pointsMap (.ok recepit) id).2 k = some v)
    ∧ (∀ k, k ≠ id → (ProcessRecepitsHandler t pointsMap (.ok recepit) id).2 k = pointsMap k)
    ∧ (ProcessRecepitsHandler t pointsMap (.ok recepit) id).2 id
        = some (computePoints t recepit)
    ∧ (∀ k v, (ProcessRecepitsHandler t pointsMap (.ok recepit) id).2 k = some v →
        pointsMap k = some v ∨ (k = id ∧ v = computePoints t recepit)) := by
  rw [ProcessRecepitsHandler_ok]
  refine ⟨?_, ?_, ?_, ?_⟩
  · intro k v hk
    have hne : k ≠ id := by
      intro he
      rw [he, hfresh] at hk
      exact absurd hk (by simp)
    simp only [if_neg hne]
    exact hk
  · intro k hne
    simp only [if_neg hne]
  · simp only [if_true]
  · intro k v hk
    by_cases he : k = id
    · simp only [he, if_true, Option.some.injEq] at hk
      exact Or.inr ⟨he, hk.symm⟩
    · simp only [if_neg he] at hk
      exact Or.inl hk

/-- C15 at a store with one record, `"a1"` with 28 points: after a submit under
`"b2"` the record of `"a1"` still reads 28. -/
theorem submit_append_only_witness :
    (ProcessRecepitsHandler ⟨fun _ => false, fun _ => false⟩
      (fun k => if k = "a1" then some 28 else none)
      (.ok ⟨"ACME", "", "", [], ""⟩) "b2").2 "a1" = some 28 :=
  (submit_append_only ⟨fun _ => false, fun _ => false⟩
    (fun k => if k = "a1" then some 28 else none) ⟨"ACME", "", "", [], ""⟩ "b2"
    (by decide)).1 "a1" 28 (by decide)

/-! ## C16: the points depend on the receipt only -/

/-- C16 (scoring is pure and deterministic): the points `ProcessRecepitsHandler`
computes depend only on the decoded receipt: for any two store states and any
two generated identifiers, submitting the same receipt yields the same points
value, that of `computePoints`. -/
theorem scoring_deterministic (t : UnicodeTables) (pointsMap₁ pointsMap₂ : PointsMap)
    (id₁ id₂ : String) (recepit : process_recepits_request) :
    ∃ p : Int,
      (ProcessRecepitsHandler t pointsMap₁ (.ok recepit) id₁).1 = .processed 200 ⟨id₁, p⟩
      ∧ (ProcessRecepitsHandler t pointsMap₂ (.ok recepit) id₂).1 = .processed 200 ⟨id₂, p⟩
      ∧ (ProcessRecepitsHandler t pointsMap₁ (.ok recepit) id₁).2 id₁ = some p
      ∧ (ProcessRecepitsHandler t pointsMap₂ (.ok recepit) id₂).2 id₂ = some p
      ∧ p = computePoints t recepit := by
  refine ⟨computePoints t recepit, rfl, rfl, ?_, ?_, rfl⟩
  · rw [ProcessRecepitsHandler_ok]
    simp only [if_true]
  · rw [ProcessRecepitsHandler_ok]
    simp only [if_true]

/-! ## C18: the order of the items -/

/-- C18 (items in another order): for every receipt and every permutation of
its items list, all other fields equal, `ProcessRecepitsHandler` computes the
same points: the item-pair bonus depends only on the number of items and the
description bonuses are summed. -/
theorem points_perm_invariant (t : UnicodeTables) (recepit : process_recepits_request)
    (items : List recepit_items) (pointsMap : PointsMap) (id : String)
    (h : items.Perm recepit.Items) :
    computePoints t { recepit with Items := items } = computePoints t recepit
    ∧ (ProcessRecepitsHandler t pointsMap (.ok { recepit with Items := items }) id).1
        = (ProcessRecepitsHandler t pointsMap (.ok recepit) id).1
    ∧ itemPairPoints items = itemPairPoints recepit.Items
    ∧ (items.map descriptionPoints).sum = (recepit.Items.map descriptionPoints).sum := by
  have hc : computePoints t { recepit with Items := items } = computePoints t recepit := by
    rw [computePoints_eq, computePoints_eq, exactPoints_perm t recepit items h]
  refine ⟨hc, ?_, ?_, (h.map descriptionPoints).sum_eq⟩
  · rw [ProcessRecepitsHandler_ok, ProcessRecepitsHandler_ok, hc]
  · rw [itemPairPoints_eq, itemPairPoints_eq, h.length_eq]

/-- C18 at a receipt of three items, the first two exchanged. -/
theorem points_perm_invariant_witness :
    computePoints ⟨fun _ => false, fun _ => false⟩
      ⟨"Target", "2022-01-01", "13:01",
        [⟨"Emils Cheese Pizza", "12.25"⟩, ⟨"Mountain Dew 12PK", "6.49"⟩,
          ⟨"Knorr Creamy Chicken", "1.26"⟩], "20.00"⟩
      = computePoints ⟨fun _ => false, fun _ => false⟩
        ⟨"Target", "2022-01-01", "13:01",
          [⟨"Mountain Dew 12PK", "6.49"⟩, ⟨"Emils Cheese Pizza", "12.25"⟩,
            ⟨"Knorr Creamy Chicken", "1.26"⟩], "20.00"⟩ :=
  (points_perm_invariant ⟨fun _ => false, fun _ => false⟩
    ⟨"Target", "2022-01-01", "13:01",
      [⟨"Mountain Dew 12PK", "6.49"⟩, ⟨"Emils Cheese Pizza", "12.25"⟩,
        ⟨"Knorr Creamy Chicken", "1.26"⟩], "20.00"⟩
    [⟨"Emils Cheese Pizza", "12.25"⟩, ⟨"Mountain Dew 12PK", "6.49"⟩,
      ⟨"Knorr Creamy Chicken", "1.26"⟩]
    (fun _ => none) "id" (List.Perm.swap _ _ _)).1

/-! ## C19: the description is measured in bytes -/

/-- C19 (bytes, not characters): the description rule measures the trimmed
description with `len`, in UTF-8 bytes, whereas the retailer rule counts
characters.  For a description made only of ASCII characters the two lengths
agree, so the rule fires exactly when the trimmed character count is divisible
by 3.  For the description `"aEb"` with `E` the two-byte letter U+00E9, three
characters and four bytes, and the price `"10.00"`, the rule contributes
nothing, where `"abc"` contributes 2; as a retailer name `"aEb"` counts 3. -/
theorem description_length_in_bytes :
    (∀ item : recepit_items, (∀ c ∈ item.ShortDescription.toList, c.toNat < 128) →
      utf8Len (TrimSpace item.ShortDescription.toList)
        = (TrimSpace item.ShortDescription.toList).length
      ∧ ((TrimSpace item.ShortDescription.toList).length % 3 = 0 →
          ∀ price, ParseFloat item.Price = (price, none) →
            descriptionPoints item = (price.mul fifth).ceil.toInt)
      ∧ ((TrimSpace item.ShortDescription.toList).length % 3 ≠ 0 →
          descriptionPoints item = 0))
    ∧ ((TrimSpace "aéb".toList).length = 3 ∧ utf8Len (TrimSpace "aéb".toList) = 4
        ∧ (Char.ofNat 0xE9).utf8Size = 2 ∧ "aéb".toList = ['a', Char.ofNat 0xE9, 'b']
        ∧ descriptionPoints ⟨"aéb", "10.00"⟩ = 0
        ∧ descriptionPoints ⟨"abc", "10.00"⟩ = 2)
    ∧ (∀ t : UnicodeTables, retailer_alphanum_count t "aéb" = 3) := by
  refine ⟨?_, ⟨by decide, by decide, by decide, by decide, by decide, by decide⟩,
    fun _ => rfl⟩
  intro item hascii
  have hlen : utf8Len (TrimSpace item.ShortDescription.toList)
      = (TrimSpace item.ShortDescription.toList).length :=
    utf8Len_of_ascii fun c hc => hascii c (mem_of_mem_TrimSpace hc)
  refine ⟨hlen, ?_, ?_⟩
  · intro h3 price hp
    exact descriptionPoints_of_price (by rw [hlen]; exact h3) hp
  · intro h3
    exact descriptionPoints_of_length (by rw [hlen]; exact h3)

end ReceiptProcessor
